import Mathlib

/-!
Verification of the Anoto dot-pattern codec (Rust sources `src/helpers.rs`,
`src/integer.rs`, `src/codec.rs`, `src/anoto_sequences.rs`).

Embedding conventions:
* `i8` / `i64` values are modelled as `Int`, `u8` values as `Nat`, `usize`
  indices and lengths as `Nat`.  All arithmetic in the modelled code paths is
  exact (no overflow occurs for the shipped configuration), so no `% 2^w`
  wrapping is inserted except where a Rust cast truncates (`as u8` is modelled
  as `% 256`, and the `as usize % 4` wrap in `rot90` as `Int.emod _ 4`, which
  agree with the wrapping semantics because `4 ∣ 2^64`).
* Rust `/` and `%` on signed integers truncate towards zero; they are modelled
  by `Int.tdiv` / `Int.tmod`.  `rem_euclid` is modelled by `Int.emod`.
* `ndarray` arrays of shape (H,W,2) are modelled as `List (List (Int × Int))`
  (rows of cells, each cell holding the two channels); arrays of shape (H,W)
  as `List (List Nat)`; 1-D arrays as `List Int`.  The third-axis dimension is
  therefore fixed to 2 by the representation (the `c != 2` branch of the
  shape assertion is unrepresentable and hence dropped).
* `Result<T, E>` values are modelled as `Except String T`, a `DecodingError`
  by its message string.
-/

/-- Matrix of shape (H,W,2): rows of cells, a cell is the pair of channels. -/
abbrev Arr3 := List (List (Int × Int))

/-- Matrix of shape (H,W) with `u8` entries. -/
abbrev Arr2 := List (List Nat)

/-- Second dimension of a rectangular list-of-rows matrix (`ndarray` keeps the
true dimension; for the rectangular matrices the code manipulates it is the
length of the first row). -/
def ncolsA {α : Type} (arr : List (List α)) : Nat := (arr.headD []).length

/-- Entry (i,j) of a list-of-rows matrix, with default `d` out of range. -/
def getM {α : Type} (arr : List (List α)) (i j : Nat) (d : α) : α :=
  (arr.getD i []).getD j d

/-- Builds an m×n matrix from a generator function (models a Rust loop that
writes every entry of a freshly allocated array exactly once). -/
def buildMat {α : Type} (m n : Nat) (f : Nat → Nat → α) : List (List α) :=
  (List.range m).map (fun i => (List.range n).map (f i))

/-- `true` iff an `Except` value is `ok` (Rust `Result::is_ok`). -/
def exceptIsOk {ε α : Type} : Except ε α → Bool
  | .ok _ => true
  | .error _ => false

/-! ### helpers.rs -/

/-- `NUM2DIR`: maps a two-bit cell code to its canonical direction. -/
def NUM2DIR : List Nat := [0, 3, 1, 2]

/-- `DIR2NUM`: inverse permutation of `NUM2DIR`. -/
def DIR2NUM : List Nat := [0, 2, 3, 1]

/-- `bits_to_num`: packs the two channel bits of each cell little-endian.
Rust computes `(x as u8) | ((y as u8) << 1)` on `i8` channel values; the
`as u8` casts wrap modulo 256 and the `u8` shift truncates modulo 256. -/
def bits_to_num (bitmatrix : Arr3) : Arr2 :=
  bitmatrix.map (fun row => row.map (fun p =>
    (p.1.emod 256).toNat ||| (((p.2.emod 256).toNat <<< 1) % 256)))

/-- `num_to_bits`: unpacks each `u8` entry to its two low bits. -/
def num_to_bits (num_matrix : Arr2) : Arr3 :=
  num_matrix.map (fun row => row.map (fun v =>
    (((v &&& 1 : Nat) : Int), ((v >>> 1) &&& 1 : Nat))))

/-- `rotate_array`: rotates a 2-D array by k·90° counterclockwise.  The Rust
loops write `result[[w-1-j, i]] = arr[[i,j]]` (k=1), `result[[h-1-i, w-1-j]] =
arr[[i,j]]` (k=2), `result[[j, h-1-i]] = arr[[i,j]]` (k=3); each writes every
output entry exactly once, so the result is the matrix generated by the
inverse index maps used below. -/
def rotate_array (arr : Arr2) (k : Int) : Arr2 :=
  let kn := (k.emod 4).toNat
  let h := arr.length
  let w := ncolsA arr
  match kn with
  | 0 => arr
  | 1 => buildMat w h (fun r c => getM arr c (w - 1 - r) 0)
  | 2 => buildMat h w (fun r c => getM arr (h - 1 - r) (w - 1 - c) 0)
  | 3 => buildMat w h (fun r c => getM arr (h - 1 - c) r 0)
  | _ => arr

/-- `rot90`: simulates a k·90° counterclockwise rotation of the bitmatrix,
remapping each cell's dot-direction code.  Rust computes
`(NUM2DIR[x] as i32 - k_norm) as usize % 4`; the wrapping `as usize` cast
followed by `% 4` equals `Int.emod _ 4` since `4 ∣ 2^64`.  The table lookups
are modelled by `getD _ 0`; an out-of-range index (cell value > 3, impossible
for bit-valued input) would panic in Rust. -/
def rot90 (bitmatrix : Arr3) (k : Int) : Arr3 :=
  let m := bits_to_num bitmatrix
  let kn := (k.emod 4).toNat
  let m_rot := rotate_array m k
  let m_transformed := m_rot.map (fun row => row.map (fun x =>
    DIR2NUM.getD (((NUM2DIR.getD x 0 : Int) - (kn : Int)).emod 4).toNat 0))
  num_to_bits m_transformed

/-- The per-cell symbol remap `x ↦ DIR2NUM[(NUM2DIR[x] - kn) % 4]` that `rot90`
applies after rotating, abstracted over the normalised rotation count. -/
def rotT (kn : Nat) (x : Nat) : Nat :=
  DIR2NUM.getD (((NUM2DIR.getD x 0 : Int) - (kn : Int)).emod 4).toNat 0

/-! ### integer.rs -/

/-- The recursion of `extended_euclid`, driven by an explicit bound on the
remaining recursion depth (each call strictly decreases `|a|`, so any fuel
above `|a|` yields the function's value; the fuel-0 row is unreachable). -/
def eeGo : Nat → Int → Int → Int × Int × Int
  | 0, _, b => (b, 0, 1)
  | fuel + 1, a, b =>
      if a = 0 then (b, 0, 1)
      else
        let t := eeGo fuel (b.tmod a) a
        (t.1, t.2.2 - (b.tdiv a) * t.2.1, t.2.1)

/-- `extended_euclid`: returns (gcd, r, s) with gcd = r*a + s*b.  Rust `%` and
`/` on `i64` are `Int.tmod` and `Int.tdiv`. -/
def extended_euclid (a b : Int) : Int × Int × Int := eeGo (a.natAbs + 1) a b

/-- `NumberBasis`: mixed-radix representation over the prime factors. -/
structure NumberBasis where
  upper : Int
  lower : Int
  bases : List Int
  rbases : List Int
  pfactors : List Int

/-- The cumulative-product loop of `NumberBasis::new`:
`push cumulative; cumulative *= factor`. -/
def basesLoop : List Int → Int → List Int
  | [], _ => []
  | p :: ps, acc => acc :: basesLoop ps (acc * p)

/-- `NumberBasis::new`. -/
def NumberBasis.new (pfactors : List Int) : NumberBasis :=
  let bases := basesLoop pfactors 1
  { upper := pfactors.prod
    lower := 0
    bases := bases
    rbases := bases.reverse
    pfactors := pfactors }

/-- The division loop of `NumberBasis::project` for a single scalar: for each
base `b` of `rbases` in order, emit quotient and continue with remainder. -/
def projectLoop : List Int → Int → List Int
  | [], _ => []
  | b :: bs, n => n.tdiv b :: projectLoop bs (n.tmod b)

/-- `NumberBasis::project` on one scalar: the pushed quotients, reversed. -/
def NumberBasis.project1 (nb : NumberBasis) (n : Int) : List Int :=
  (projectLoop nb.rbases n).reverse

/-- `NumberBasis::project`: element-wise on an array of numbers (the Rust
loop performs the same divisions vectorized over the input array and stores
row i of the result as the digit list of input i). -/
def NumberBasis.project (nb : NumberBasis) (ns : List Int) : List (List Int) :=
  ns.map nb.project1

/-- `NumberBasis::reconstruct` on one digit row: Σ cᵢ·basesᵢ. -/
def NumberBasis.reconstruct1 (nb : NumberBasis) (cs : List Int) : Int :=
  (List.zipWith (fun c b => c * b) cs nb.bases).sum

/-- `NumberBasis::reconstruct`: row-wise. -/
def NumberBasis.reconstruct (nb : NumberBasis) (coeffs : List (List Int)) : List Int :=
  coeffs.map nb.reconstruct1

/-- `CRT`: Chinese Remainder solver state. -/
structure CRT where
  lengths : List Int
  l : Int
  qs : List Int
  es : List Int

/-- `CRT::compute_qs`: per modulus `li`, run extended Euclid on
`(li, l / li)`, fail if the returned gcd component is not 1, and return
`((s % li) + li) % li` (Rust `%` = `tmod`). -/
def CRT.compute_qs (lengths : List Int) (l : Int) : Except String (List Int) :=
  lengths.mapM (fun li =>
    let t := extended_euclid li (l.tdiv li)
    if t.1 ≠ 1 then .error ("List lengths must be relatively prime.")
    else .ok (((t.2.2.tmod li) + li).tmod li))

/-- `CRT::new`. -/
def CRT.new (lengths : List Int) : Except String CRT :=
  let l := lengths.prod
  match CRT.compute_qs lengths l with
  | .error e => .error e
  | .ok qs =>
      .ok { lengths := lengths
            l := l
            qs := qs
            es := List.zipWith (fun q li => q * (l.tdiv li)) qs lengths }

/-- `CRT::solve`: `sum = (sum + (r*e) % l) % l` over the remainders. -/
def CRT.solve (c : CRT) (remainders : List Int) : Int :=
  (List.zipWith (fun r e => (r * e).tmod c.l) remainders c.es).foldl
    (fun sum t => (sum + t).tmod c.l) 0

/-! ### codec.rs -/

/-- `make_cyclic`: appends the first `order - 1` elements.  Rust slices
`&seq[..order - 1]`, which panics when `order = 0` (usize underflow) or when
`order - 1 > seq.len()`; `List.take` clamps silently instead.  The two agree
exactly on the in-range domain `1 ≤ order ∧ order - 1 ≤ seq.length`, so every
theorem about whole configurations carries hypotheses confining it to that
domain (`ArgsWf`, or explicit length bounds). -/
def make_cyclic (seq : List Int) (order : Nat) : List Int :=
  seq ++ seq.take (order - 1)

/-- Contiguous slice of length `n` starting at `i`. -/
def subSeq (l : List Int) (i n : Nat) : List Int := (l.drop i).take n

/-- The scan loop of `find_in_mns_cyclic` / `find_in_sns_cyclic`, driven by an
explicit bound on the remaining iterations (any fuel above
`hay.length + 1 - i` yields the loop's value; the fuel-0 row is unreachable
because the loop exits once `i + |needle| > |hay|`). -/
def findSubGo (hay needle : List Int) : Nat → Nat → Option Nat
  | 0, _ => none
  | fuel + 1, i =>
      if i + needle.length ≤ hay.length then
        if subSeq hay i needle.length = needle then some i
        else findSubGo hay needle fuel (i + 1)
      else none

/-- The linear scan of `find_in_mns_cyclic` / `find_in_sns_cyclic`: first
index `i` with `hay[i..i+|needle|] = needle`, scanning `i` from the given
start through `hay.length - needle.length`. -/
def findSubFrom (hay needle : List Int) (i : Nat) : Option Nat :=
  findSubGo hay needle (hay.length + 1 - i) i

/-- `AnotoCodec`: all tables are precomputed at construction. -/
structure AnotoCodec where
  mns : List Int
  mns_length : Nat
  mns_cyclic : List Int
  mns_order : Nat
  sns_order : Nat
  sns : List (List Int)
  sns_lengths : List Nat
  sns_cyclic : List (List Int)
  num_basis : NumberBasis
  crt : CRT
  delta_range : Int × Int

/-- `AnotoCodec::new`; the only fallible step is `CRT::new`. -/
def AnotoCodec.new (mns : List Int) (mns_order : Nat) (sns : List (List Int))
    (pfactors : List Int) (delta_range : Int × Int) : Except String AnotoCodec :=
  let sns_lengths := sns.map List.length
  match CRT.new (sns_lengths.map (fun x => Int.ofNat x)) with
  | .error e => .error e
  | .ok crt =>
      .ok { mns := mns
            mns_length := mns.length
            mns_cyclic := make_cyclic mns mns_order
            mns_order := mns_order
            sns_order := mns_order - 1
            sns := sns
            sns_lengths := sns_lengths
            sns_cyclic := sns.map (fun s => make_cyclic s (mns_order - 1))
            num_basis := NumberBasis.new pfactors
            crt := crt
            delta_range := delta_range }

/-- `AnotoCodec::delta`: digit `i` is `sns_cyclic[i][pos % len_i]`; the value
is `reconstruct(digits) + delta_range.0`. -/
def AnotoCodec.delta (c : AnotoCodec) (pos : Nat) : Int :=
  let rs : List Int := c.sns_lengths.map (fun len => Int.ofNat (pos % len))
  let coeffs := rs.enum.map (fun p => (c.sns_cyclic.getD p.1 []).getD p.2.toNat 0)
  c.num_basis.reconstruct1 coeffs + c.delta_range.1

/-- `AnotoCodec::next_roll`.  The Rust cast `delta(pos-1) as usize` is modelled
by `Int.toNat`; for every configuration with in-range SNS digits the delta is
nonnegative, where the two agree. -/
def AnotoCodec.next_roll (c : AnotoCodec) (pos prev_roll : Nat) : Nat :=
  if pos = 0 then prev_roll
  else (prev_roll + (c.delta (pos - 1)).toNat) % c.mns_length

/-- The roll value used by the encoder at column (resp. row) index `x`, when
the section offset for the axis is `s`: the running `roll` variable of the
encoder loops after the `next_roll` call of iteration `x`. -/
def AnotoCodec.rollAt (c : AnotoCodec) (s : Nat) : Nat → Nat
  | 0 => c.next_roll 0 (s % c.mns_length)
  | x + 1 => c.next_roll (x + 1) (c.rollAt s x)

/-- `AnotoCodec::roll_mns`: the MNS rotated left by `roll`. -/
def AnotoCodec.roll_mns (c : AnotoCodec) (roll : Nat) : List Int :=
  (List.range c.mns_length).map (fun i => c.mns.getD ((i + roll) % c.mns_length) 0)

/-- `AnotoCodec::integrate_roll`: Σ_{i<pos} delta(i), plus `first_roll`,
modulo the MNS length (the same `as usize` cast as in `next_roll`). -/
def AnotoCodec.integrate_roll (c : AnotoCodec) (pos first_roll : Nat) : Nat :=
  let r := (List.range pos).foldl (fun r i => r + (c.delta i).toNat) 0
  (first_roll + r) % c.mns_length

/-- `AnotoCodec::encode_bitmatrix`: the padded `mh×mw` matrix is generated by
the two channel loops (channel 0 at (y,x) is `roll_mns(roll_x)[y % L]`,
channel 1 is `roll_mns(roll_y)[x % L]`), then cropped to `h×w`.  The Rust
code computes `mh` with `f64::ceil`, exact for the integer sizes in scope;
it is modelled by ceiling division. -/
def AnotoCodec.encode_bitmatrix (c : AnotoCodec) (shape : Nat × Nat)
    (sec : Nat × Nat) : Arr3 :=
  let h := shape.1
  let w := shape.2
  let mh := c.mns_length * ((h + c.mns_length - 1) / c.mns_length)
  let mw := c.mns_length * ((w + c.mns_length - 1) / c.mns_length)
  let full := (List.range mh).map (fun y => (List.range mw).map (fun x =>
    ((c.roll_mns (c.rollAt sec.1 x)).getD (y % c.mns_length) 0,
     (c.roll_mns (c.rollAt sec.2 y)).getD (x % c.mns_length) 0)))
  (full.take h).map (fun row => row.take w)

/-- `AnotoCodec::find_in_mns_cyclic`. -/
def AnotoCodec.find_in_mns_cyclic (c : AnotoCodec) (seq : List Int) :
    Except String Nat :=
  match findSubFrom c.mns_cyclic seq 0 with
  | some i => .ok i
  | none => .error ("Failed to find partial sequence in MNS")

/-- `AnotoCodec::find_in_sns_cyclic`. -/
def AnotoCodec.find_in_sns_cyclic (c : AnotoCodec) (sns_idx : Nat)
    (seq : List Int) : Except String Nat :=
  match findSubFrom (c.sns_cyclic.getD sns_idx []) seq 0 with
  | some i => .ok i
  | none =>
      .error ("Failed to find partial sequence in SNS[" ++ toString sns_idx ++ "]")

/-- `AnotoCodec::assert_bitmatrix_shape`.  The channel-count test `c != 2` is
always false in this representation (cells are pairs) and is dropped. -/
def AnotoCodec.assert_bitmatrix_shape (c : AnotoCodec) (bits : Arr3)
    (min_size : Option Nat) : Except String Unit :=
  let n := bits.length
  let m := ncolsA bits
  let mn := min_size.getD c.mns_order
  if n < mn ∨ m < mn then
    .error ("Expected at least a matrix of size (" ++ toString mn ++ "," ++
      toString mn ++ ",2) matrix, but got (" ++ toString n ++ "," ++
      toString m ++ ",2)")
  else .ok ()

/-- Column extraction: row `j` of the result is column `j` of `m`; used for
the `ndarray` transpose of the square channel slice and for iterating the
columns of the projected digit table. -/
def colsN (n : Nat) (m : List (List Int)) : List (List Int) :=
  (List.range n).map (fun j => m.map (fun row => row.getD j 0))

/-- `AnotoCodec::decode_position_along_direction`. -/
def AnotoCodec.decode_position_along_direction (c : AnotoCodec)
    (bits : List (List Int)) : Except String Nat :=
  match bits.mapM (fun row => c.find_in_mns_cyclic row) with
  | .error e => .error e
  | .ok locs =>
      let locsZ : List Int := locs.map (fun v => Int.ofNat v)
      let deltae := (List.range (locsZ.length - 1)).map (fun i =>
        (((locsZ.getD (i + 1) 0 - locsZ.getD i 0).tmod (c.mns_length : Int)) +
          (c.mns_length : Int)).tmod (c.mns_length : Int))
      if deltae.any (fun d => d < c.delta_range.1 ∨ d > c.delta_range.2) then
        .error ("At least one delta value is not within required range")
      else
        let deltae2 := deltae.map (fun d => d - c.delta_range.1)
        let coeffs := deltae2.map (fun d => c.num_basis.project1 d)
        let cols := colsN c.num_basis.bases.length coeffs
        match cols.enum.mapM (fun p => c.find_in_sns_cyclic p.1 p.2) with
        | .error e => .error e
        | .ok ps => .ok (c.crt.solve (ps.map (fun v => Int.ofNat v))).toNat

/-- `AnotoCodec::decode_position`. -/
def AnotoCodec.decode_position (c : AnotoCodec) (bits : Arr3) :
    Except String (Nat × Nat) :=
  match c.assert_bitmatrix_shape bits none with
  | .error e => .error e
  | .ok _ =>
      let sliced := (bits.take c.mns_order).map (fun row => row.take c.mns_order)
      let x_bits := colsN c.mns_order (sliced.map (fun row => row.map Prod.fst))
      let y_bits := sliced.map (fun row => row.map Prod.snd)
      match c.decode_position_along_direction x_bits with
      | .error e => .error e
      | .ok x =>
          match c.decode_position_along_direction y_bits with
          | .error e => .error e
          | .ok y => .ok (x, y)

/-- `AnotoCodec::decode_section`; `rem_euclid` is `Int.emod`. -/
def AnotoCodec.decode_section (c : AnotoCodec) (bits : Arr3) (pos : Nat × Nat) :
    Except String (Nat × Nat) :=
  match c.assert_bitmatrix_shape bits none with
  | .error e => .error e
  | .ok _ =>
      let px_seq := (bits.take c.mns_order).map (fun row => (row.getD 0 (0, 0)).1)
      let py_seq := ((bits.getD 0 []).take c.mns_order).map (fun p => p.2)
      match c.find_in_mns_cyclic px_seq with
      | .error e => .error e
      | .ok px_mns =>
          match c.find_in_mns_cyclic py_seq with
          | .error e => .error e
          | .ok py_mns =>
              let sx := c.integrate_roll pos.1 0
              let sy := c.integrate_roll pos.2 0
              let u := ((px_mns : Int) - (pos.2 : Int) - (sx : Int)).emod
                (c.mns_length : Int)
              let v := ((py_mns : Int) - (pos.1 : Int) - (sy : Int)).emod
                (c.mns_length : Int)
              .ok (u.toNat, v.toNat)

/-- `AnotoCodec::check_rotation`: counts full column slices of channel 0 and
row slices of channel 1 found in the cyclic MNS; both counts must reach m/2. -/
def AnotoCodec.check_rotation (c : AnotoCodec) (rotbits : Arr3) (m : Nat) : Bool :=
  let xcol_correct := (List.range m).countP (fun i =>
    exceptIsOk (c.find_in_mns_cyclic (rotbits.map (fun row => (row.getD i (0, 0)).1))))
  let yrow_correct := (List.range m).countP (fun i =>
    exceptIsOk (c.find_in_mns_cyclic ((rotbits.getD i []).map (fun p => p.2))))
  decide (m / 2 ≤ xcol_correct) && decide (m / 2 ≤ yrow_correct)

/-- The iterations of the `for k in 0..4` loop of `decode_rotation`, driven
by an explicit bound on the remaining iterations (any fuel above `4 - k`
yields the loop's value; the fuel-0 row is unreachable because the loop exits
once `k ≥ 4`). -/
def rotGo (c : AnotoCodec) (bs : Arr3) (m : Nat) : Nat → Nat → Except String Nat
  | 0, _ => .error ("Failed to determine pattern orientation.")
  | fuel + 1, k =>
      if k < 4 then
        if c.check_rotation (rot90 bs (k : Int)) m then .ok ((4 - k) % 4)
        else rotGo c bs m fuel (k + 1)
      else .error ("Failed to determine pattern orientation.")

/-- The `for k in 0..4` loop of `decode_rotation`: first k whose rotation
checks out wins, reported as `(4 - k) % 4`. -/
def AnotoCodec.decode_rotation_loop (c : AnotoCodec) (bs : Arr3) (m k : Nat) :
    Except String Nat :=
  rotGo c bs m (5 - k) k

/-- `AnotoCodec::decode_rotation`: crops to the min dimension, no shape check. -/
def AnotoCodec.decode_rotation (c : AnotoCodec) (bits : Arr3) : Except String Nat :=
  let m := min bits.length (ncolsA bits)
  let bits_square := (bits.take m).map (fun row => row.take m)
  c.decode_rotation_loop bits_square m 0
/-- `MNS` from `anoto_sequences.rs` (63 entries). -/
def seqMNS : List Int := [
  0, 0, 0, 0, 0, 0, 1, 0, 0, 1, 1, 1, 1, 1, 0, 1, 0, 0, 1, 0, 0, 0, 0, 1, 1,
  1, 0, 1, 1, 1, 0, 0, 1, 0, 1, 0, 1, 0, 0, 0, 1, 0, 1, 1, 0, 1, 1, 0, 0, 1,
  1, 0, 1, 0, 1, 1, 1, 1, 0, 0, 0, 1, 1]

/-- `A1` from `anoto_sequences.rs` (236 entries). -/
def seqA1 : List Int := [
  0, 0, 0, 0, 0, 1, 0, 0, 0, 0, 2, 0, 1, 0, 0, 1, 0, 1, 0, 0, 2, 0, 0, 0, 1,
  1, 0, 0, 0, 1, 2, 0, 0, 1, 0, 2, 0, 0, 2, 0, 2, 0, 1, 1, 0, 1, 0, 1, 1, 0,
  2, 0, 1, 2, 0, 1, 0, 1, 2, 0, 2, 1, 0, 0, 1, 1, 1, 0, 1, 1, 1, 1, 0, 2, 1,
  0, 1, 0, 2, 1, 1, 0, 0, 1, 2, 1, 0, 1, 1, 2, 0, 0, 0, 2, 1, 0, 2, 0, 2, 1,
  1, 1, 0, 0, 2, 1, 2, 0, 1, 1, 1, 2, 0, 2, 0, 0, 1, 1, 2, 1, 0, 0, 0, 2, 2,
  0, 1, 0, 2, 2, 0, 0, 1, 2, 2, 0, 2, 0, 2, 2, 1, 0, 1, 2, 1, 2, 1, 0, 2, 1,
  2, 1, 1, 0, 2, 2, 1, 2, 1, 2, 0, 2, 2, 0, 2, 2, 2, 0, 1, 1, 2, 2, 1, 1, 0,
  1, 2, 2, 2, 2, 1, 2, 0, 0, 2, 2, 1, 1, 2, 1, 2, 2, 1, 0, 2, 2, 2, 2, 2, 0,
  2, 1, 2, 2, 2, 1, 1, 1, 2, 1, 1, 2, 0, 1, 2, 2, 1, 2, 2, 0, 1, 2, 1, 1, 1,
  1, 2, 2, 2, 0, 0, 2, 1, 1, 2, 2]

/-- `A2` from `anoto_sequences.rs` (233 entries). -/
def seqA2 : List Int := [
  0, 0, 0, 0, 0, 1, 0, 0, 0, 0, 2, 0, 1, 0, 0, 1, 0, 1, 0, 1, 1, 0, 0, 0, 1,
  1, 1, 1, 0, 0, 1, 1, 0, 1, 0, 0, 2, 0, 0, 0, 1, 2, 0, 1, 0, 1, 2, 1, 0, 0,
  0, 2, 1, 1, 1, 0, 1, 1, 1, 0, 2, 1, 0, 0, 1, 2, 1, 2, 1, 0, 1, 0, 2, 0, 1,
  1, 0, 2, 0, 0, 1, 0, 2, 1, 2, 0, 0, 0, 2, 2, 0, 0, 1, 1, 2, 0, 2, 0, 0, 2,
  0, 2, 0, 1, 2, 0, 0, 2, 2, 1, 1, 0, 0, 2, 1, 0, 1, 1, 2, 1, 0, 2, 0, 2, 2,
  1, 0, 0, 2, 2, 2, 1, 0, 1, 2, 2, 0, 0, 2, 1, 2, 2, 1, 1, 1, 1, 1, 2, 0, 0,
  1, 2, 2, 1, 2, 0, 1, 1, 1, 2, 1, 1, 2, 0, 1, 2, 1, 1, 1, 2, 2, 0, 2, 2, 0,
  1, 1, 2, 2, 2, 2, 1, 2, 1, 2, 2, 0, 1, 2, 2, 2, 0, 2, 0, 2, 1, 1, 2, 2, 1,
  0, 2, 2, 0, 2, 1, 0, 2, 1, 1, 0, 2, 2, 2, 2, 0, 1, 0, 2, 2, 1, 2, 2, 2, 1,
  1, 2, 1, 2, 0, 2, 2, 2]

/-- `A3` from `anoto_sequences.rs` (31 entries). -/
def seqA3 : List Int := [
  0, 0, 0, 0, 0, 1, 0, 0, 1, 1, 0, 0, 0, 1, 1, 1, 1, 0, 0, 1, 0, 1, 0, 1, 1,
  0, 1, 1, 1, 0, 1]

/-- `A4` from `anoto_sequences.rs` (241 entries). -/
def seqA4 : List Int := [
  0, 0, 0, 0, 0, 1, 0, 2, 0, 0, 0, 0, 2, 0, 0, 2, 0, 1, 0, 0, 0, 1, 1, 2, 0,
  0, 0, 1, 2, 0, 0, 2, 1, 0, 0, 0, 2, 1, 1, 2, 0, 1, 0, 1, 0, 0, 1, 2, 1, 0,
  0, 1, 0, 0, 2, 2, 0, 0, 0, 2, 2, 1, 0, 2, 0, 1, 1, 0, 0, 1, 1, 1, 0, 1, 0,
  1, 1, 0, 1, 2, 0, 1, 1, 1, 1, 0, 0, 2, 0, 2, 0, 1, 2, 0, 2, 2, 0, 1, 0, 2,
  1, 0, 1, 2, 1, 1, 0, 1, 1, 1, 2, 2, 0, 0, 1, 0, 1, 2, 2, 2, 0, 0, 2, 2, 2,
  0, 1, 2, 1, 2, 0, 2, 0, 0, 1, 2, 2, 0, 1, 1, 2, 1, 0, 2, 1, 1, 0, 2, 0, 2,
  1, 2, 0, 0, 1, 1, 0, 2, 1, 2, 1, 0, 1, 0, 2, 2, 0, 2, 1, 0, 2, 2, 1, 1, 1,
  2, 0, 2, 1, 1, 1, 0, 2, 2, 2, 2, 0, 2, 0, 2, 2, 1, 2, 1, 1, 1, 1, 2, 1, 2,
  1, 2, 2, 2, 1, 0, 0, 2, 1, 2, 2, 1, 0, 1, 1, 2, 2, 1, 1, 2, 1, 2, 2, 2, 2,
  1, 2, 0, 1, 2, 2, 1, 2, 2, 0, 2, 2, 2, 1, 1, 1]

/-- `A4_ALT` from `anoto_sequences.rs` (241 entries). -/
def seqA4_ALT : List Int := [
  0, 0, 0, 0, 2, 2, 2, 2, 0, 2, 2, 2, 1, 0, 2, 2, 2, 0, 0, 2, 2, 1, 2, 0, 2,
  2, 1, 1, 0, 2, 2, 1, 0, 0, 2, 2, 0, 0, 0, 2, 1, 2, 2, 0, 2, 1, 2, 1, 0, 2,
  1, 2, 0, 0, 2, 1, 1, 2, 0, 2, 1, 1, 1, 0, 2, 1, 1, 0, 0, 2, 1, 0, 0, 0, 2,
  0, 2, 2, 0, 2, 0, 2, 1, 0, 2, 0, 2, 0, 0, 2, 0, 1, 0, 0, 2, 0, 0, 0, 0, 1,
  2, 2, 2, 0, 1, 2, 2, 1, 0, 1, 2, 2, 0, 0, 1, 2, 1, 2, 0, 1, 2, 1, 1, 0, 1,
  2, 1, 0, 0, 1, 2, 0, 0, 0, 1, 1, 2, 2, 0, 1, 1, 2, 1, 0, 1, 1, 2, 0, 0, 1,
  1, 1, 2, 0, 1, 1, 1, 1, 2, 2, 2, 2, 1, 2, 2, 2, 1, 1, 2, 2, 1, 1, 1, 2, 1,
  2, 2, 1, 2, 1, 2, 1, 1, 2, 1, 1, 1, 1, 1, 0, 1, 1, 1, 0, 0, 1, 1, 0, 0, 0,
  1, 0, 2, 2, 0, 1, 0, 2, 1, 0, 1, 0, 2, 0, 0, 1, 0, 1, 2, 0, 2, 0, 1, 2, 0,
  1, 0, 1, 1, 0, 2, 0, 1, 1, 0, 1, 0, 1, 0, 0, 1]

/-- Junk `CRT` used only for the unreachable `expect`-failure branch of the
default constructors. -/
def crtJunk : CRT := { lengths := [], l := 0, qs := [], es := [] }

/-- Junk codec for the unreachable failure branch of the default
constructors (`defaults.rs` calls `.expect`, which cannot fire there). -/
def junkCodec : AnotoCodec :=
  { mns := [], mns_length := 0, mns_cyclic := [], mns_order := 0, sns_order := 0,
    sns := [], sns_lengths := [], sns_cyclic := [],
    num_basis := NumberBasis.new [], crt := crtJunk, delta_range := (0, 0) }

/-- `defaults::anoto_6x6`: the 6×6 codec with the original `A4`. -/
def anoto_6x6 : AnotoCodec :=
  match AnotoCodec.new seqMNS 6 [seqA1, seqA2, seqA3, seqA4] [3, 3, 2, 3] (5, 58) with
  | .ok c => c
  | .error _ => junkCodec

/-- `defaults::anoto_6x6_a4_fixed`: the 6×6 codec with `A4_ALT`. -/
def anoto_6x6_a4_fixed : AnotoCodec :=
  match AnotoCodec.new seqMNS 6 [seqA1, seqA2, seqA3, seqA4_ALT] [3, 3, 2, 3] (5, 58) with
  | .ok c => c
  | .error _ => junkCodec

/-- The n×n sub-window of a bitmatrix whose top-left corner is at row `y`,
column `x` (the slice `bits[y..y+n, x..x+n, ..]`). -/
def subMatrix (a : Arr3) (y x n : Nat) : Arr3 :=
  ((a.drop y).take n).map (fun row => (row.drop x).take n)

/-- A minimal well-formed configuration (order-2 de-Bruijn MNS, one SNS):
small enough that every property is decidable by evaluation. -/
def anoto_tiny : AnotoCodec :=
  match AnotoCodec.new [0, 0, 1, 1] 2 [[0, 1]] [2] (0, 1) with
  | .ok c => c
  | .error _ => junkCodec

/-- A concrete two-modulus CRT instance. -/
def crt23 : CRT :=
  match CRT.new [2, 3] with
  | .ok c => c
  | .error _ => crtJunk

instance {ε α : Type} [DecidableEq ε] [DecidableEq α] : DecidableEq (Except ε α) := by
  intro a b
  cases a <;> cases b <;>
    first
    | (rename_i x y
       exact if h : x = y then .isTrue (by rw [h]) else .isFalse (by simp [h]))
    | exact .isFalse (by simp)

/-- Well-formedness of a codec configuration: the quasi-de-Bruijn window
uniqueness of the MNS (order `mord`) and of every SNS (order `mord - 1`),
in-range SNS digits, positive prime factors whose product spans the delta
range, a delta range inside `[0, L_m)`, and pairwise-coprime SNS lengths.
All fields are decidable for a concrete configuration. -/
structure ArgsWf (mns : List Int) (mord : Nat) (sns : List (List Int))
    (pf : List Int) (dr : Int × Int) : Prop where
  order_ge : 2 ≤ mord
  mns_len : mord ≤ mns.length
  mns_nodup : ((List.range mns.length).map
      (fun i => subSeq (make_cyclic mns mord) i mord)).Nodup
  sns_count : sns.length = pf.length
  sns_long : ∀ s ∈ sns, mord - 1 ≤ s.length
  sns_nodup : ∀ k ∈ List.range sns.length,
      ((List.range (sns.getD k []).length).map
        (fun i => subSeq (make_cyclic (sns.getD k []) (mord - 1)) i (mord - 1))).Nodup
  sns_entries : ∀ k ∈ List.range sns.length, ∀ a ∈ sns.getD k [],
      0 ≤ a ∧ a < pf.getD k 0
  pf_pos : ∀ p ∈ pf, 0 < p
  pf_prod : pf.prod = dr.2 - dr.1 + 1
  dr_min : 0 ≤ dr.1
  dr_max : dr.2 < (mns.length : Int)
  len_cop : (sns.map (fun s => Int.ofNat s.length)).Pairwise
      (fun a b => Int.gcd a b = 1)

/-! ## Generic list and integer lemmas -/

theorem natAbs_tmod_lt (b a : Int) (h : a ≠ 0) : (b.tmod a).natAbs < a.natAbs := by
  have ha : 0 < a.natAbs := Int.natAbs_pos.mpr h
  cases b <;> cases a <;>
    simp only [Int.tmod, Int.natAbs_ofNat, Int.natAbs_neg, Int.natAbs_negSucc] at * <;>
    exact Nat.mod_lt _ ha

theorem eeGo_congr : ∀ (f1 : Nat), ∀ (f2 : Nat) (a b : Int),
    a.natAbs < f1 → a.natAbs < f2 → eeGo f1 a b = eeGo f2 a b := by
  intro f1
  induction f1 with
  | zero => intro f2 a b h1 _; omega
  | succ fuel ih =>
      intro f2 a b h1 h2
      cases f2 with
      | zero => omega
      | succ g =>
          by_cases ha : a = 0
          · rw [eeGo, eeGo, if_pos ha, if_pos ha]
          · rw [eeGo, eeGo, if_neg ha, if_neg ha]
            have hlt : (b.tmod a).natAbs < a.natAbs := natAbs_tmod_lt b a ha
            rw [ih g (b.tmod a) a (by omega) (by omega)]

theorem extended_euclid_eq (a b : Int) :
    extended_euclid a b =
      if a = 0 then (b, 0, 1)
      else
        let t := extended_euclid (b.tmod a) a
        (t.1, t.2.2 - (b.tdiv a) * t.2.1, t.2.1) := by
  unfold extended_euclid
  by_cases ha : a = 0
  · rw [eeGo, if_pos ha, if_pos ha]
  · rw [eeGo, if_neg ha, if_neg ha]
    have hlt : (b.tmod a).natAbs < a.natAbs := natAbs_tmod_lt b a ha
    rw [eeGo_congr a.natAbs ((b.tmod a).natAbs + 1) (b.tmod a) a (by omega) (by omega)]

theorem tmod_bounds (s li : Int) (h : 0 < li) : -li < s.tmod li ∧ s.tmod li < li := by
  have h1 : (s.tmod li).natAbs < li.natAbs := natAbs_tmod_lt s li (by omega)
  have h2 : li.natAbs = li.toNat := by omega
  constructor <;> omega

/-- The Rust normalization `((s % li) + li) % li` (with truncated `%`) equals
the Euclidean remainder for a positive modulus. -/
theorem natAbs_tmod (b a : Int) : (b.tmod a).natAbs = b.natAbs % a.natAbs := by
  cases b <;> cases a <;>
    simp only [Int.tmod, Int.natAbs_neg, Int.natAbs_ofNat, Int.natAbs_negSucc] <;> rfl

/-- The Rust normalization `((s % li) + li) % li` (with truncated `%`) equals
the Euclidean remainder for a positive modulus. -/
theorem tmod_norm (s li : Int) (h : 0 < li) : ((s.tmod li) + li).tmod li = s % li := by
  obtain ⟨hl, hr⟩ := tmod_bounds s li h
  have hx : 0 ≤ s.tmod li + li := by omega
  rw [Int.tmod_eq_emod hx (le_of_lt h)]
  have e1 : (s.tmod li + li) % li = (s.tmod li) % li := by
    have := Int.add_mul_emod_self_left (a := s.tmod li) (b := li) (c := 1)
    rw [mul_one] at this
    exact this
  rw [e1]
  have hq := Int.tmod_add_tdiv s li
  have hsplit : s.tmod li = s + li * (-(s.tdiv li)) := by
    have : li * (-(s.tdiv li)) = -(li * s.tdiv li) := by ring
    omega
  rw [hsplit, Int.add_mul_emod_self_left]

theorem map_id_of_mem {α : Type} (l : List α) (f : α → α) (h : ∀ a ∈ l, f a = a) :
    l.map f = l := by
  induction l with
  | nil => rfl
  | cons a t ih =>
      simp only [List.map_cons, h a (by simp)]
      rw [ih (fun b hb => h b (by simp [hb]))]

theorem getD_range_map {α : Type} (n i : Nat) (f : Nat → α) (d : α) (h : i < n) :
    ((List.range n).map f).getD i d = f i := by
  rw [List.getD_eq_getElem _ _ (by simpa using h)]
  simp

theorem subSeq_eq_map (l : List Int) (i n : Nat) (h : i + n ≤ l.length) :
    subSeq l i n = (List.range n).map (fun j => l.getD (i + j) 0) := by
  apply List.ext_getElem
  · simp [subSeq]
    omega
  · intro j h1 h2
    have hj : j < n := by simpa using h2
    have hjl : i + j < l.length := by omega
    simp only [subSeq, List.getElem_take, List.getElem_drop, List.getElem_map,
      List.getElem_range]
    rw [List.getD_eq_getElem _ _ hjl]

theorem subSeq_length (l : List Int) (i n : Nat) (h : i + n ≤ l.length) :
    (subSeq l i n).length = n := by
  simp [subSeq]
  omega

theorem forall₂_of_mapM_ok {α β : Type} (f : α → Except String β) :
    ∀ (l : List α) (out : List β), l.mapM f = .ok out →
      List.Forall₂ (fun a b => f a = .ok b) l out := by
  intro l
  induction l with
  | nil =>
      intro out h
      simp only [List.mapM_nil, pure] at h
      cases h
      exact .nil
  | cons a t ih =>
      intro out h
      rw [List.mapM_cons] at h
      cases hfa : f a with
      | error e => rw [hfa] at h; simp [Bind.bind, Except.bind] at h
      | ok b =>
          rw [hfa] at h
          cases hft : t.mapM f with
          | error e =>
              rw [hft] at h
              simp [Bind.bind, Except.bind, pure, Except.pure] at h
          | ok bs =>
              rw [hft] at h
              simp only [Bind.bind, Except.bind, pure, Except.pure, Except.ok.injEq] at h
              cases h
              exact .cons hfa (ih bs hft)

theorem mapM_ok_of_forall₂ {α β : Type} (f : α → Except String β) :
    ∀ (l : List α) (out : List β), List.Forall₂ (fun a b => f a = .ok b) l out →
      l.mapM f = .ok out := by
  intro l
  induction l with
  | nil =>
      intro out h
      cases h
      rfl
  | cons a t ih =>
      intro out h
      cases h with
      | cons hab htail =>
          rename_i b bs
          rw [List.mapM_cons, hab, ih bs htail]
          rfl

theorem mapM_error_of_mem {α β : Type} (f : α → Except String β) (l : List α)
    (a : α) (ha : a ∈ l) (e : String) (he : f a = .error e) :
    ∃ e2, l.mapM f = .error e2 := by
  induction l with
  | nil => cases ha
  | cons x t ih =>
      rw [List.mapM_cons]
      cases hfx : f x with
      | error e3 => exact ⟨e3, by simp [Bind.bind, Except.bind]⟩
      | ok b =>
          rcases List.mem_cons.mp ha with rfl | hat
          · rw [hfx] at he; cases he
          · obtain ⟨e2, h2⟩ := ih hat
            rw [h2]
            exact ⟨e2, by simp [Bind.bind, Except.bind]⟩

/-! ## Mixed-radix basis (`NumberBasis`) -/

theorem basesLoop_length : ∀ (pf : List Int) (acc : Int),
    (basesLoop pf acc).length = pf.length := by
  intro pf
  induction pf with
  | nil => intro acc; rfl
  | cons p ps ih => intro acc; simp [basesLoop, ih]

theorem basesLoop_append : ∀ (ps : List Int) (p acc : Int),
    basesLoop (ps ++ [p]) acc = basesLoop ps acc ++ [acc * ps.prod] := by
  intro ps
  induction ps with
  | nil => intro p acc; simp [basesLoop]
  | cons q qs ih => intro p acc; simp [basesLoop, ih, mul_assoc]

theorem projectLoop_length : ∀ (bs : List Int) (n : Int),
    (projectLoop bs n).length = bs.length := by
  intro bs
  induction bs with
  | nil => intro n; rfl
  | cons b t ih => intro n; simp [projectLoop, ih]

theorem project1_length (pf : List Int) (n : Int) :
    ((NumberBasis.new pf).project1 n).length = pf.length := by
  simp [NumberBasis.new, NumberBasis.project1, projectLoop_length, basesLoop_length]

theorem new_project1_append (ps : List Int) (p n : Int) :
    (NumberBasis.new (ps ++ [p])).project1 n =
      (NumberBasis.new ps).project1 (n.tmod ps.prod) ++ [n.tdiv ps.prod] := by
  simp [NumberBasis.new, NumberBasis.project1, basesLoop_append, projectLoop]

theorem new_reconstruct1_append (ps : List Int) (p : Int) (cs : List Int) (c : Int)
    (hlen : cs.length = ps.length) :
    (NumberBasis.new (ps ++ [p])).reconstruct1 (cs ++ [c]) =
      (NumberBasis.new ps).reconstruct1 cs + c * ps.prod := by
  have hl : cs.length = (basesLoop ps 1).length := by rw [basesLoop_length]; exact hlen
  simp [NumberBasis.new, NumberBasis.reconstruct1, basesLoop_append,
    List.zipWith_append _ _ _ _ _ hl]

theorem nb_reconstruct_project1 : ∀ (pf : List Int), (∀ p ∈ pf, 0 < p) →
    ∀ n : Int, 0 ≤ n → n < pf.prod →
    (NumberBasis.new pf).reconstruct1 ((NumberBasis.new pf).project1 n) = n := by
  intro pf
  induction pf using List.reverseRecOn with
  | nil =>
      intro _ n h0 hn
      simp only [List.prod_nil] at hn
      have : n = 0 := by omega
      simp [this, NumberBasis.new, NumberBasis.project1, NumberBasis.reconstruct1,
        projectLoop, basesLoop]
  | append_singleton ps p ih =>
      intro hp n h0 _
      have hP : 0 < ps.prod := List.prod_pos (fun a ha => hp a (by simp [ha]))
      have hp' : ∀ q ∈ ps, 0 < q := fun q hq => hp q (by simp [hq])
      have hmod0 : 0 ≤ n.tmod ps.prod := Int.tmod_nonneg _ h0
      have hmodlt : n.tmod ps.prod < ps.prod := Int.tmod_lt_of_pos n hP
      rw [new_project1_append,
        new_reconstruct1_append _ _ _ _ (project1_length ps (n.tmod ps.prod)),
        ih hp' _ hmod0 hmodlt]
      have := Int.tmod_add_tdiv' n ps.prod
      linarith

theorem nb_reconstruct1_bounds : ∀ (pf : List Int), (∀ p ∈ pf, 0 < p) →
    ∀ cs : List Int, cs.length = pf.length →
    (∀ q ∈ List.zip cs pf, 0 ≤ q.1 ∧ q.1 < q.2) →
    0 ≤ (NumberBasis.new pf).reconstruct1 cs ∧
      (NumberBasis.new pf).reconstruct1 cs < pf.prod := by
  intro pf
  induction pf using List.reverseRecOn with
  | nil =>
      intro _ cs hlen _
      have : cs = [] := List.eq_nil_of_length_eq_zero hlen
      subst this
      simp [NumberBasis.new, NumberBasis.reconstruct1, basesLoop]
  | append_singleton ps p ih =>
      intro hp cs hlen hzip
      have hcs : cs ≠ [] := by
        intro h
        rw [h] at hlen
        simp at hlen
      obtain ⟨cs2, c, rfl⟩ : ∃ cs2 c, cs = cs2 ++ [c] :=
        ⟨cs.dropLast, cs.getLast hcs, (List.dropLast_append_getLast hcs).symm⟩
      have hlen2 : cs2.length = ps.length := by
        simp at hlen
        omega
      have hzsplit : List.zip (cs2 ++ [c]) (ps ++ [p]) =
          List.zip cs2 ps ++ [(c, p)] := by
        rw [List.zip_append hlen2]
        rfl
      have hzip2 : ∀ q ∈ List.zip cs2 ps, 0 ≤ q.1 ∧ q.1 < q.2 := by
        intro q hq
        exact hzip q (by rw [hzsplit]; exact List.mem_append_left _ hq)
      have hcp : 0 ≤ c ∧ c < p := by
        have := hzip (c, p) (by rw [hzsplit]; exact List.mem_append_right _ (by simp))
        exact this
      have hp' : ∀ q ∈ ps, 0 < q := fun q hq => hp q (by simp [hq])
      have hP : 0 < ps.prod := List.prod_pos hp'
      obtain ⟨hR0, hRlt⟩ := ih hp' cs2 hlen2 hzip2
      rw [new_reconstruct1_append _ _ _ _ hlen2]
      constructor
      · have : 0 ≤ c * ps.prod := mul_nonneg hcp.1 (le_of_lt hP)
        linarith
      · have h1 : c * ps.prod ≤ (p - 1) * ps.prod :=
          mul_le_mul_of_nonneg_right (by omega) (le_of_lt hP)
        have h2 : (ps ++ [p]).prod = ps.prod * p := by simp
        nlinarith

theorem nb_project_reconstruct1 : ∀ (pf : List Int), (∀ p ∈ pf, 0 < p) →
    ∀ cs : List Int, cs.length = pf.length →
    (∀ q ∈ List.zip cs pf, 0 ≤ q.1 ∧ q.1 < q.2) →
    (NumberBasis.new pf).project1 ((NumberBasis.new pf).reconstruct1 cs) = cs := by
  intro pf
  induction pf using List.reverseRecOn with
  | nil =>
      intro _ cs hlen _
      have : cs = [] := List.eq_nil_of_length_eq_zero hlen
      subst this
      simp [NumberBasis.new, NumberBasis.reconstruct1, NumberBasis.project1,
        basesLoop, projectLoop]
  | append_singleton ps p ih =>
      intro hp cs hlen hzip
      have hcs : cs ≠ [] := by
        intro h
        rw [h] at hlen
        simp at hlen
      obtain ⟨cs2, c, rfl⟩ : ∃ cs2 c, cs = cs2 ++ [c] :=
        ⟨cs.dropLast, cs.getLast hcs, (List.dropLast_append_getLast hcs).symm⟩
      have hlen2 : cs2.length = ps.length := by
        simp at hlen
        omega
      have hzsplit : List.zip (cs2 ++ [c]) (ps ++ [p]) =
          List.zip cs2 ps ++ [(c, p)] := by
        rw [List.zip_append hlen2]
        rfl
      have hzip2 : ∀ q ∈ List.zip cs2 ps, 0 ≤ q.1 ∧ q.1 < q.2 := by
        intro q hq
        exact hzip q (by rw [hzsplit]; exact List.mem_append_left _ hq)
      have hcp : 0 ≤ c ∧ c < p := by
        have := hzip (c, p) (by rw [hzsplit]; exact List.mem_append_right _ (by simp))
        exact this
      have hp' : ∀ q ∈ ps, 0 < q := fun q hq => hp q (by simp [hq])
      have hP : 0 < ps.prod := List.prod_pos hp'
      obtain ⟨hR0, hRlt⟩ := nb_reconstruct1_bounds ps hp' cs2 hlen2 hzip2
      rw [new_reconstruct1_append _ _ _ _ hlen2, new_project1_append]
      set R := (NumberBasis.new ps).reconstruct1 cs2 with hR
      have hN0 : 0 ≤ R + c * ps.prod := by
        have : 0 ≤ c * ps.prod := mul_nonneg hcp.1 (le_of_lt hP)
        linarith
      have hmod : (R + c * ps.prod).tmod ps.prod = R := by
        rw [Int.tmod_eq_emod hN0 (le_of_lt hP), Int.add_mul_emod_self,
          Int.emod_eq_of_lt hR0 hRlt]
      have hdiv : (R + c * ps.prod).tdiv ps.prod = c := by
        rw [Int.tdiv_eq_ediv hN0 (le_of_lt hP),
          Int.add_mul_ediv_right _ _ (ne_of_gt hP),
          Int.ediv_eq_zero_of_lt hR0 hRlt]
        omega
      rw [hmod, hdiv, ih hp' cs2 hlen2 hzip2]

/-! ## Extended Euclid and CRT -/

theorem ee_bezout_aux : ∀ (n : Nat) (a b : Int), a.natAbs ≤ n →
    (extended_euclid a b).2.1 * a + (extended_euclid a b).2.2 * b =
      (extended_euclid a b).1 := by
  intro n
  induction n with
  | zero =>
      intro a b hn
      have ha : a = 0 := by omega
      subst ha
      rw [extended_euclid_eq]
      simp
  | succ n ih =>
      intro a b hn
      by_cases h : a = 0
      · subst h
        rw [extended_euclid_eq]
        simp
      · rw [extended_euclid_eq, if_neg h]
        simp only []
        have hlt : (b.tmod a).natAbs < a.natAbs := natAbs_tmod_lt b a h
        have ihr := ih (b.tmod a) a (by omega)
        have hmod : b.tmod a = b - a * (b.tdiv a) := by
          have := Int.tmod_add_tdiv b a
          omega
        linear_combination ihr - (extended_euclid (b.tmod a) a).2.1 * hmod

theorem ee_bezout (a b : Int) :
    (extended_euclid a b).2.1 * a + (extended_euclid a b).2.2 * b =
      (extended_euclid a b).1 :=
  ee_bezout_aux a.natAbs a b le_rfl

theorem ee_gcd_aux : ∀ (n : Nat) (a b : Int), a.natAbs ≤ n → 0 ≤ a → 0 ≤ b →
    (extended_euclid a b).1 = (Int.gcd a b : Int) := by
  intro n
  induction n with
  | zero =>
      intro a b hn _ hb
      have ha : a = 0 := by omega
      subst ha
      rw [extended_euclid_eq, if_pos rfl]
      show b = (Int.gcd 0 b : Int)
      rw [Int.gcd_zero_left]
      omega
  | succ n ih =>
      intro a b hn ha hb
      by_cases h : a = 0
      · subst h
        rw [extended_euclid_eq, if_pos rfl]
        show b = (Int.gcd 0 b : Int)
        rw [Int.gcd_zero_left]
        omega
      · rw [extended_euclid_eq, if_neg h]
        simp only []
        have hlt : (b.tmod a).natAbs < a.natAbs := natAbs_tmod_lt b a h
        have h1 : 0 ≤ b.tmod a := Int.tmod_nonneg a hb
        rw [ih (b.tmod a) a (by omega) h1 ha]
        congr 1
        rw [Int.gcd, Int.gcd, natAbs_tmod]
        exact (Nat.gcd_rec a.natAbs b.natAbs).symm

theorem ee_gcd : ∀ (a b : Int), 0 ≤ a → 0 ≤ b →
    (extended_euclid a b).1 = (Int.gcd a b : Int) :=
  fun a b => ee_gcd_aux a.natAbs a b le_rfl

theorem getD_mem {α : Type} (l : List α) (i : Nat) (d : α) (h : i < l.length) :
    l.getD i d ∈ l := by
  rw [List.getD_eq_getElem _ _ h]
  exact List.getElem_mem h

theorem prod_eraseIdx : ∀ (ls : List Int) (i : Nat), i < ls.length →
    ls.prod = ls.getD i 0 * (ls.eraseIdx i).prod := by
  intro ls
  induction ls with
  | nil => intro i h; simp at h
  | cons a t ih =>
      intro i h
      cases i with
      | zero => simp [List.eraseIdx]
      | succ n =>
          have hn : n < t.length := by simpa using h
          simp only [List.eraseIdx, List.getD_cons_succ, List.prod_cons]
          rw [ih n hn]
          ring

theorem getD_mem_eraseIdx : ∀ (ls : List Int) (i j : Nat), i < ls.length →
    i ≠ j → ls.getD i 0 ∈ ls.eraseIdx j := by
  intro ls
  induction ls with
  | nil => intro i j h; simp at h
  | cons a t ih =>
      intro i j hi hij
      cases j with
      | zero =>
          cases i with
          | zero => exact absurd rfl hij
          | succ n =>
              simp only [List.eraseIdx, List.getD_cons_succ]
              exact getD_mem t n 0 (by simpa using hi)
      | succ m =>
          cases i with
          | zero => simp [List.eraseIdx]
          | succ n =>
              simp only [List.eraseIdx, List.getD_cons_succ]
              exact List.mem_cons_of_mem _ (ih n m (by simpa using hi) (by omega))

theorem isCoprime_list_prod (a : Int) : ∀ (l : List Int),
    (∀ b ∈ l, IsCoprime a b) → IsCoprime a l.prod := by
  intro l
  induction l with
  | nil => intro _; simpa using isCoprime_one_right
  | cons b t ih =>
      intro h
      rw [List.prod_cons]
      exact IsCoprime.mul_right (h b (by simp)) (ih (fun x hx => h x (by simp [hx])))

theorem pairwise_coprime_prod_dvd : ∀ (ls : List Int) (d : Int),
    ls.Pairwise (fun a b => Int.gcd a b = 1) → (∀ x ∈ ls, x ∣ d) → ls.prod ∣ d := by
  intro ls
  induction ls with
  | nil => intro d _ _; simp
  | cons a t ih =>
      intro d hp hdvd
      rw [List.pairwise_cons] at hp
      have hco : IsCoprime a t.prod :=
        isCoprime_list_prod a t
          (fun b hb => Int.isCoprime_iff_gcd_eq_one.mpr (hp.1 b hb))
      rw [List.prod_cons]
      exact IsCoprime.mul_dvd hco (hdvd a (by simp))
        (ih d hp.2 (fun x hx => hdvd x (by simp [hx])))

theorem sum_congr_mod (li : Int) : ∀ (ts us : List Int),
    List.Forall₂ (fun t u => t % li = u % li) ts us → ts.sum % li = us.sum % li := by
  intro ts
  induction ts with
  | nil =>
      intro us h
      cases h
      rfl
  | cons t ts2 ih =>
      intro us h
      cases h with
      | cons hh htail =>
          rename_i u us2
          simp only [List.sum_cons]
          rw [Int.add_emod t, Int.add_emod u, hh, ih us2 htail]

theorem foldl_tmod_spec (l : Int) (hl : 0 < l) : ∀ (ts : List Int) (s0 : Int),
    0 ≤ s0 → s0 < l → (∀ t ∈ ts, 0 ≤ t) →
    (0 ≤ ts.foldl (fun s t => (s + t).tmod l) s0 ∧
      ts.foldl (fun s t => (s + t).tmod l) s0 < l) ∧
    (ts.foldl (fun s t => (s + t).tmod l) s0) % l = (s0 + ts.sum) % l := by
  intro ts
  induction ts with
  | nil =>
      intro s0 h0 hlt _
      refine ⟨⟨h0, hlt⟩, ?_⟩
      simp
  | cons t ts2 ih =>
      intro s0 h0 hlt hmem
      have ht : 0 ≤ t := hmem t (by simp)
      have hst : 0 ≤ s0 + t := by omega
      have hstep : (s0 + t).tmod l = (s0 + t) % l :=
        Int.tmod_eq_emod hst (le_of_lt hl)
      have hb0 : 0 ≤ (s0 + t).tmod l := by
        rw [hstep]
        exact Int.emod_nonneg _ (by omega)
      have hblt : (s0 + t).tmod l < l := by
        rw [hstep]
        exact Int.emod_lt_of_pos _ hl
      have hmem2 : ∀ x ∈ ts2, (0 : Int) ≤ x := fun x hx => hmem x (by simp [hx])
      obtain ⟨hbounds, hmod⟩ := ih ((s0 + t).tmod l) hb0 hblt hmem2
      refine ⟨hbounds, ?_⟩
      simp only [List.foldl_cons, List.sum_cons] at *
      rw [hmod, hstep, Int.emod_add_emod]
      congr 1
      ring

theorem zip_mul_sum_mod : ∀ (rs es : List Int) (li : Int) (i : Nat),
    i < rs.length → rs.length = es.length →
    (es.getD i 0) % li = 1 % li →
    (∀ j, j < rs.length → j ≠ i → li ∣ es.getD j 0) →
    (List.zipWith (fun r e => r * e) rs es).sum % li = (rs.getD i 0) % li := by
  intro rs
  induction rs with
  | nil => intro es li i h; simp at h
  | cons r rt ih =>
      intro es li i hi hlen h1 hdvd
      cases es with
      | nil => simp at hlen
      | cons e et =>
          have hlen2 : rt.length = et.length := by simpa using hlen
          simp only [List.zipWith_cons_cons, List.sum_cons]
          cases i with
          | zero =>
              have hrest : li ∣ (List.zipWith (fun r e => r * e) rt et).sum := by
                apply List.dvd_sum
                intro x hx
                obtain ⟨j, hj, hxe⟩ := List.mem_iff_getElem.mp hx
                have hjr : j < rt.length := by
                  rw [List.length_zipWith] at hj
                  omega
                have hje : j < et.length := by omega
                have : x = rt[j] * et[j] := by
                  rw [← hxe]
                  exact List.getElem_zipWith
                rw [this]
                apply Dvd.dvd.mul_left
                have := hdvd (j + 1) (by simpa using hjr) (by omega)
                rw [List.getD_cons_succ, List.getD_eq_getElem _ _ hje] at this
                exact this
              rw [Int.add_emod, Int.emod_eq_zero_of_dvd hrest, add_zero,
                Int.emod_emod_of_dvd _ dvd_rfl]
              simp only [List.getD_cons_zero] at h1 ⊢
              rw [Int.mul_emod, h1, ← Int.mul_emod, mul_one]
          | succ n =>
              have hre : li ∣ r * e := by
                apply Dvd.dvd.mul_left
                have := hdvd 0 (by simp) (by omega)
                simpa using this
              rw [Int.add_emod, Int.emod_eq_zero_of_dvd hre, zero_add,
                Int.emod_emod_of_dvd _ dvd_rfl]
              simp only [List.getD_cons_succ] at h1 ⊢
              exact ih et li n (by simpa using hi) hlen2 h1
                (fun j hj hjn => by
                  have := hdvd (j + 1) (by simpa using hj) (by omega)
                  rw [List.getD_cons_succ] at this
                  exact this)

theorem crt_new_fields (ls : List Int) (c : CRT) (hnew : CRT.new ls = .ok c) :
    c.lengths = ls ∧ c.l = ls.prod ∧ CRT.compute_qs ls ls.prod = .ok c.qs ∧
      c.es = List.zipWith (fun q li => q * (ls.prod.tdiv li)) c.qs ls := by
  unfold CRT.new at hnew
  cases hq : CRT.compute_qs ls ls.prod with
  | error e => simp [hq] at hnew
  | ok qs =>
      simp only [hq, Except.ok.injEq] at hnew
      subst hnew
      exact ⟨rfl, rfl, rfl, rfl⟩

theorem compute_qs_spec (ls : List Int) (l : Int) (qs : List Int)
    (hq : CRT.compute_qs ls l = .ok qs) :
    qs.length = ls.length ∧
    ∀ i, i < ls.length →
      (extended_euclid (ls.getD i 0) (l.tdiv (ls.getD i 0))).1 = 1 ∧
      qs.getD i 0 =
        (((extended_euclid (ls.getD i 0) (l.tdiv (ls.getD i 0))).2.2.tmod
          (ls.getD i 0)) + ls.getD i 0).tmod (ls.getD i 0) := by
  have hfa := forall₂_of_mapM_ok _ ls qs hq
  obtain ⟨hlen, hget⟩ := List.forall₂_iff_get.mp hfa
  refine ⟨hlen.symm, ?_⟩
  intro i hi
  have h := hget i hi (by omega)
  simp only [List.get_eq_getElem] at h
  by_cases hc : (extended_euclid ls[i] (l.tdiv ls[i])).1 ≠ 1
  · rw [if_pos hc] at h
    cases h
  · rw [if_neg hc] at h
    push_neg at hc
    have hg : ls.getD i 0 = ls[i] := List.getD_eq_getElem _ _ hi
    have hq : qs.getD i 0 = qs[i] := List.getD_eq_getElem _ _ (by omega)
    rw [hg, hq]
    exact ⟨hc, (Except.ok.inj h).symm⟩

/-- CRT correctness: for a solver successfully constructed from positive
pairwise-coprime moduli and in-range remainders, `solve` yields the unique
value in `[0, ∏Lᵢ)` matching every congruence. -/
theorem crt_solve_spec (ls : List Int) (c : CRT) (hnew : CRT.new ls = .ok c)
    (hpos : ∀ x ∈ ls, 0 < x)
    (hcop : ls.Pairwise (fun a b => Int.gcd a b = 1))
    (rs : List Int) (hlen : rs.length = ls.length)
    (hr : ∀ i, i < ls.length → 0 ≤ rs.getD i 0 ∧ rs.getD i 0 < ls.getD i 0) :
    (0 ≤ c.solve rs ∧ c.solve rs < ls.prod) ∧
    (∀ i, i < ls.length → (c.solve rs) % (ls.getD i 0) = rs.getD i 0) ∧
    (∀ z : Int, 0 ≤ z → z < ls.prod →
      (∀ i, i < ls.length → z % (ls.getD i 0) = rs.getD i 0) → z = c.solve rs) := by
  obtain ⟨hcl, hcL, hq, hes⟩ := crt_new_fields ls c hnew
  obtain ⟨hqlen, hqi⟩ := compute_qs_spec ls ls.prod c.qs hq
  have hL : 0 < ls.prod := List.prod_pos hpos
  have hposd : ∀ i, i < ls.length → 0 < ls.getD i 0 := fun i hi =>
    hpos _ (getD_mem ls i 0 hi)
  have heslen : c.es.length = ls.length := by
    rw [hes, List.length_zipWith, hqlen]
    simp
  -- Per-index description of es
  have hesgetD : ∀ i, i < ls.length →
      c.es.getD i 0 = c.qs.getD i 0 * (ls.prod.tdiv (ls.getD i 0)) := by
    intro i hi
    rw [hes, List.getD_eq_getElem _ _ (by rw [List.length_zipWith, hqlen]; simpa),
      List.getElem_zipWith, List.getD_eq_getElem _ _ (by omega),
      List.getD_eq_getElem _ _ hi]
  -- es_i >= 0
  have hes0 : ∀ i, i < ls.length → 0 ≤ c.es.getD i 0 := by
    intro i hi
    rw [hesgetD i hi, (hqi i hi).2, tmod_norm _ _ (hposd i hi)]
    exact mul_nonneg (Int.emod_nonneg _ (by have := hposd i hi; omega))
      (Int.tdiv_nonneg (le_of_lt hL) (le_of_lt (hposd i hi)))
  -- es_i ≡ 1 mod l_i
  have hes1 : ∀ i, i < ls.length → (c.es.getD i 0) % (ls.getD i 0) = 1 % (ls.getD i 0) := by
    intro i hi
    obtain ⟨hee1, hqv⟩ := hqi i hi
    have hbez := ee_bezout (ls.getD i 0) (ls.prod.tdiv (ls.getD i 0))
    rw [hee1] at hbez
    rw [hesgetD i hi, hqv, tmod_norm _ _ (hposd i hi)]
    set li := ls.getD i 0
    set d := ls.prod.tdiv li
    set s := (extended_euclid li d).2.2
    set r := (extended_euclid li d).2.1
    have h1 : (s % li * d) % li = (s * d) % li := by
      rw [Int.mul_emod, Int.emod_emod_of_dvd _ dvd_rfl, ← Int.mul_emod]
    have h2 : s * d = 1 + li * (-r) := by linarith
    rw [h1, h2, Int.add_mul_emod_self_left]
  -- l_i divides es_j for j ≠ i
  have hesd : ∀ i j, i < ls.length → j < ls.length → j ≠ i →
      ls.getD i 0 ∣ c.es.getD j 0 := by
    intro i j hi hj hji
    rw [hesgetD j hj]
    apply Dvd.dvd.mul_left
    have hpe : ls.prod = ls.getD j 0 * (ls.eraseIdx j).prod := prod_eraseIdx ls j hj
    have : ls.prod.tdiv (ls.getD j 0) = (ls.eraseIdx j).prod := by
      rw [hpe]
      exact Int.mul_tdiv_cancel_left _ (by have := hposd j hj; omega)
    rw [this]
    exact List.dvd_prod (getD_mem_eraseIdx ls i j hi (by omega))
  -- all l_i divide ls.prod
  have hdL : ∀ i, i < ls.length → ls.getD i 0 ∣ ls.prod := fun i hi =>
    List.dvd_prod (getD_mem ls i 0 hi)
  -- Reduce solve to the folded sum
  have hterms : ∀ t ∈ List.zipWith (fun r e => (r * e).tmod c.l) rs c.es, (0 : Int) ≤ t := by
    intro t ht
    obtain ⟨j, hjlen, hje⟩ := List.mem_iff_getElem.mp ht
    rw [List.length_zipWith] at hjlen
    have hjr : j < rs.length := by omega
    have hjl : j < ls.length := by omega
    rw [← hje, List.getElem_zipWith]
    have h1 : 0 ≤ rs[j] := by
      have := (hr j hjl).1
      rwa [List.getD_eq_getElem _ _ hjr] at this
    have h2 : 0 ≤ c.es[j] := by
      have := hes0 j hjl
      rwa [List.getD_eq_getElem _ _ (by omega)] at this
    rw [Int.tmod_eq_emod (mul_nonneg h1 h2) (by rw [hcL]; omega)]
    exact Int.emod_nonneg _ (by rw [hcL]; omega)
  have hsolve := foldl_tmod_spec c.l (by rw [hcL]; exact hL)
    (List.zipWith (fun r e => (r * e).tmod c.l) rs c.es) 0 le_rfl
    (by rw [hcL]; exact hL) hterms
  have hsolve_def : c.solve rs =
      (List.zipWith (fun r e => (r * e).tmod c.l) rs c.es).foldl
        (fun sum t => (sum + t).tmod c.l) 0 := rfl
  obtain ⟨⟨hs0, hslt⟩, hsmod⟩ := hsolve
  rw [← hsolve_def] at hs0 hslt hsmod
  rw [zero_add] at hsmod
  -- Congruence of the tmod-ed term list with the raw products
  have hcong : ∀ li : Int, li ∣ c.l →
      (List.zipWith (fun r e => (r * e).tmod c.l) rs c.es).sum % li =
      (List.zipWith (fun r e => r * e) rs c.es).sum % li := by
    intro li hdvd
    apply sum_congr_mod
    rw [List.forall₂_iff_get]
    constructor
    · simp [List.length_zipWith]
    · intro j h1 h2
      simp only [List.get_eq_getElem, List.getElem_zipWith]
      rw [List.length_zipWith] at h1
      have hjr : j < rs.length := by omega
      have hjl : j < ls.length := by omega
      have hr1 : 0 ≤ rs[j] := by
        have := (hr j hjl).1
        rwa [List.getD_eq_getElem _ _ hjr] at this
      have hr2 : 0 ≤ c.es[j] := by
        have := hes0 j hjl
        rwa [List.getD_eq_getElem _ _ (by omega)] at this
      rw [Int.tmod_eq_emod (mul_nonneg hr1 hr2) (by rw [hcL]; omega)]
      exact Int.emod_emod_of_dvd _ hdvd
  -- The congruence facts for solve
  have hsolvemod : ∀ i, i < ls.length → (c.solve rs) % (ls.getD i 0) = rs.getD i 0 := by
    intro i hi
    have hdvdL : ls.getD i 0 ∣ c.l := by rw [hcL]; exact hdL i hi
    have e1 : (c.solve rs) % (ls.getD i 0) =
        ((c.solve rs) % c.l) % (ls.getD i 0) :=
      (Int.emod_emod_of_dvd _ hdvdL).symm
    rw [e1, hsmod, Int.emod_emod_of_dvd _ hdvdL, hcong _ hdvdL]
    have := zip_mul_sum_mod rs c.es (ls.getD i 0) i (by omega)
      (by omega) (hes1 i hi) (fun j hj hji => hesd i j hi (by omega) hji)
    rw [this]
    have hb := hr i hi
    exact Int.emod_eq_of_lt hb.1 hb.2
  refine ⟨⟨hs0, by rwa [hcL] at hslt⟩, hsolvemod, ?_⟩
  -- Uniqueness
  intro z hz0 hzlt hzmod
  have hdiff : ∀ x ∈ ls, x ∣ (c.solve rs - z) := by
    intro x hx
    obtain ⟨i, hi, hxe⟩ := List.mem_iff_getElem.mp hx
    have hgd : ls.getD i 0 = x := by rw [List.getD_eq_getElem _ _ hi, hxe]
    have h1 : z % x = (c.solve rs) % x := by
      rw [← hgd, hzmod i hi, hsolvemod i hi]
    exact Int.ModEq.dvd h1
  have hdvd : ls.prod ∣ (c.solve rs - z) := pairwise_coprime_prod_dvd ls _ hcop hdiff
  have habs : c.solve rs - z = 0 := by
    rcases hdvd with ⟨k, hk⟩
    have hlt1 : c.solve rs < ls.prod := by rwa [hcL] at hslt
    have hk0 : k = 0 := by
      by_contra hk0
      have : 1 ≤ k ∨ k ≤ -1 := by omega
      rcases this with hk1 | hk1
      · have : ls.prod * 1 ≤ ls.prod * k := by
          apply mul_le_mul_of_nonneg_left hk1 (le_of_lt hL)
        omega
      · have : ls.prod * k ≤ ls.prod * (-1) := by
          apply mul_le_mul_of_nonneg_left hk1 (le_of_lt hL)
        omega
    rw [hk0, mul_zero] at hk
    exact hk
  omega

/-! ## Cyclic extensions and the substring locator -/

theorem make_cyclic_length (S : List Int) (o : Nat) (ho : o - 1 ≤ S.length) :
    (make_cyclic S o).length = S.length + (o - 1) := by
  simp [make_cyclic]
  omega

theorem make_cyclic_getD (S : List Int) (o j : Nat) (ho : o - 1 ≤ S.length)
    (hj : j < S.length + (o - 1)) :
    (make_cyclic S o).getD j 0 = S.getD (j % S.length) 0 := by
  by_cases hS : S.length = 0
  · have : S = [] := List.eq_nil_of_length_eq_zero hS
    subst this
    simp [make_cyclic]
  · have hSpos : 0 < S.length := by omega
    by_cases hjl : j < S.length
    · rw [make_cyclic, List.getD_append _ _ _ _ hjl, Nat.mod_eq_of_lt hjl]
    · have h1 : S.length ≤ j := by omega
      have h2 : j - S.length < o - 1 := by omega
      have h3 : j - S.length < (S.take (o - 1)).length := by
        simp
        omega
      have h4 : j - S.length < S.length := by omega
      rw [make_cyclic, List.getD_append_right _ _ _ _ h1,
        List.getD_eq_getElem _ _ h3, List.getElem_take,
        Nat.mod_eq_sub_mod h1, Nat.mod_eq_of_lt h4]
      rw [List.getD_eq_getElem _ _ h4]

theorem window_eq_map (S : List Int) (o i : Nat) (ho : o ≤ S.length)
    (hpos : 0 < S.length) (hi : i < S.length) :
    subSeq (make_cyclic S o) i o =
      (List.range o).map (fun j => S.getD ((i + j) % S.length) 0) := by
  have hext : i + o ≤ (make_cyclic S o).length := by
    rw [make_cyclic_length S o (by omega)]
    omega
  rw [subSeq_eq_map _ _ _ hext]
  apply List.map_congr_left
  intro j hj
  have hjo : j < o := List.mem_range.mp hj
  exact make_cyclic_getD S o (i + j) (by omega) (by omega)

theorem window_length (S : List Int) (o i : Nat) (ho : o ≤ S.length)
    (hpos : 0 < S.length) (hi : i < S.length) :
    (subSeq (make_cyclic S o) i o).length = o := by
  apply subSeq_length
  rw [make_cyclic_length S o (by omega)]
  omega

theorem findSubGo_congr (hay needle : List Int) : ∀ (f1 f2 i : Nat),
    hay.length + 1 - i ≤ f1 → hay.length + 1 - i ≤ f2 →
    findSubGo hay needle f1 i = findSubGo hay needle f2 i := by
  intro f1
  induction f1 with
  | zero =>
      intro f2 i h1 _
      cases f2 with
      | zero => rfl
      | succ g =>
          rw [findSubGo, findSubGo, if_neg (by omega)]
  | succ fuel ih =>
      intro f2 i h1 h2
      cases f2 with
      | zero =>
          rw [findSubGo, findSubGo, if_neg (by omega)]
      | succ g =>
          rw [findSubGo, findSubGo]
          by_cases hg : i + needle.length ≤ hay.length
          · rw [if_pos hg, if_pos hg]
            by_cases hm : subSeq hay i needle.length = needle
            · rw [if_pos hm, if_pos hm]
            · rw [if_neg hm, if_neg hm]
              exact ih g (i + 1) (by omega) (by omega)
          · rw [if_neg hg, if_neg hg]

theorem findSubFrom_eq (hay needle : List Int) (i : Nat) :
    findSubFrom hay needle i =
      if i + needle.length ≤ hay.length then
        if subSeq hay i needle.length = needle then some i
        else findSubFrom hay needle (i + 1)
      else none := by
  unfold findSubFrom
  by_cases hi : i ≤ hay.length
  · rw [show hay.length + 1 - i = (hay.length - i) + 1 from by omega, findSubGo]
    by_cases hg : i + needle.length ≤ hay.length
    · rw [if_pos hg, if_pos hg,
        show hay.length + 1 - (i + 1) = hay.length - i from by omega]
    · rw [if_neg hg, if_neg hg]
  · rw [show hay.length + 1 - i = 0 from by omega, findSubGo, if_neg (by omega)]

theorem findSubFrom_from (hay needle : List Int) (off : Nat)
    (hlen : off + needle.length ≤ hay.length)
    (hm : subSeq hay off needle.length = needle) :
    ∀ n i, off - i = n → i ≤ off →
      (∀ j, i ≤ j → j < off → subSeq hay j needle.length ≠ needle) →
      findSubFrom hay needle i = some off := by
  intro n
  induction n with
  | zero =>
      intro i hn hi _
      have : i = off := by omega
      subst this
      rw [findSubFrom_eq, if_pos hlen, if_pos hm]
  | succ n ih =>
      intro i hn hi hfirst
      have hio : i < off := by omega
      rw [findSubFrom_eq, if_pos (by omega : i + needle.length ≤ hay.length),
        if_neg (hfirst i le_rfl hio)]
      exact ih (i + 1) (by omega) (by omega)
        (fun j hj1 hj2 => hfirst j (by omega) hj2)

theorem nodup_window_unique (S : List Int) (o : Nat)
    (hnd : ((List.range S.length).map (fun i => subSeq (make_cyclic S o) i o)).Nodup)
    (i j : Nat) (hi : i < S.length) (hj : j < S.length)
    (heq : subSeq (make_cyclic S o) i o = subSeq (make_cyclic S o) j o) : i = j :=
  List.inj_on_of_nodup_map hnd (List.mem_range.mpr hi) (List.mem_range.mpr hj) heq

/-- The locator finds a cyclic window of a quasi-de-Bruijn sequence at its
unique offset. -/
theorem find_window (S : List Int) (o : Nat) (off : Nat)
    (ho : o ≤ S.length) (hpos : 0 < S.length) (hoff : off < S.length)
    (hnd : ((List.range S.length).map (fun i => subSeq (make_cyclic S o) i o)).Nodup) :
    findSubFrom (make_cyclic S o) (subSeq (make_cyclic S o) off o) 0 = some off := by
  have hwl : (subSeq (make_cyclic S o) off o).length = o :=
    window_length S o off ho hpos hoff
  have hext : (make_cyclic S o).length = S.length + (o - 1) :=
    make_cyclic_length S o (by omega)
  apply findSubFrom_from _ _ off
  · rw [hwl, hext]
    omega
  · rw [hwl]
  · rfl
  · omega
  · intro j _ hj
    rw [hwl]
    intro hcontra
    have hjS : j < S.length := by omega
    have := nodup_window_unique S o hnd j off hjS hoff hcontra
    omega

/-! ## Codec construction, delta, rolls, encoder -/

theorem getD_map {α β : Type} (l : List α) (f : α → β) (i : Nat) (d : β)
    (h : i < l.length) : (l.map f).getD i d = f l[i] := by
  rw [List.getD_eq_getElem _ _ (by simpa using h), List.getElem_map]

theorem anoto_new_fields (mns : List Int) (mord : Nat) (sns : List (List Int))
    (pf : List Int) (dr : Int × Int) (c : AnotoCodec)
    (hnew : AnotoCodec.new mns mord sns pf dr = .ok c) :
    c.mns = mns ∧ c.mns_length = mns.length ∧
    c.mns_cyclic = make_cyclic mns mord ∧ c.mns_order = mord ∧
    c.sns_order = mord - 1 ∧ c.sns = sns ∧
    c.sns_lengths = sns.map List.length ∧
    c.sns_cyclic = sns.map (fun s => make_cyclic s (mord - 1)) ∧
    c.num_basis = NumberBasis.new pf ∧ c.delta_range = dr ∧
    CRT.new (sns.map (fun s => Int.ofNat s.length)) = .ok c.crt := by
  unfold AnotoCodec.new at hnew
  simp only [] at hnew
  split at hnew
  · cases hnew
  · rename_i crt hq
    cases hnew
    refine ⟨rfl, rfl, rfl, rfl, rfl, rfl, rfl, rfl, rfl, rfl, ?_⟩
    rw [List.map_map] at hq
    exact hq

theorem foldl_add_sum (g : Nat → Nat) : ∀ (l : List Nat) (a : Nat),
    l.foldl (fun r i => r + g i) a = a + (l.map g).sum := by
  intro l
  induction l with
  | nil => intro a; simp
  | cons x t ih =>
      intro a
      simp only [List.foldl_cons, List.map_cons, List.sum_cons]
      rw [ih]
      omega

theorem rollAt_eq (c : AnotoCodec) (s : Nat) : ∀ x : Nat,
    c.rollAt s x =
      (s + ((List.range x).map (fun t => (c.delta t).toNat)).sum) % c.mns_length := by
  intro x
  induction x with
  | zero => simp [AnotoCodec.rollAt, AnotoCodec.next_roll]
  | succ n ih =>
      show c.next_roll (n + 1) (c.rollAt s n) = _
      rw [AnotoCodec.next_roll, if_neg (by omega), ih]
      simp only [Nat.add_sub_cancel]
      rw [List.range_succ, List.map_append, List.sum_append]
      simp only [List.map_cons, List.map_nil, List.sum_cons, List.sum_nil]
      rw [Nat.mod_add_mod]
      congr 1
      omega

theorem integrate_roll_eq (c : AnotoCodec) (p f0 : Nat) :
    c.integrate_roll p f0 =
      (f0 + ((List.range p).map (fun t => (c.delta t).toNat)).sum) % c.mns_length := by
  unfold AnotoCodec.integrate_roll
  rw [foldl_add_sum]
  simp

theorem le_ceil_mul (h L : Nat) (hL : 0 < L) : h ≤ L * ((h + L - 1) / L) := by
  have key := Nat.div_add_mod (h + L - 1) L
  have hm : (h + L - 1) % L < L := Nat.mod_lt _ hL
  omega

theorem roll_mns_getD (c : AnotoCodec) (r i : Nat) (hi : i < c.mns_length) :
    (c.roll_mns r).getD i 0 = c.mns.getD ((i + r) % c.mns_length) 0 := by
  unfold AnotoCodec.roll_mns
  exact getD_range_map _ _ _ _ hi

/-- Closed form of the encoder: after cropping, cell (y,x) holds the MNS
entry at offset `(y + roll_x) mod L` on channel 0 and `(x + roll_y) mod L`
on channel 1. -/
theorem encode_eq (c : AnotoCodec) (hL : 0 < c.mns_length) (h w u v : Nat) :
    c.encode_bitmatrix (h, w) (u, v) =
      (List.range h).map (fun y => (List.range w).map (fun x =>
        (c.mns.getD ((y % c.mns_length + c.rollAt u x) % c.mns_length) 0,
         c.mns.getD ((x % c.mns_length + c.rollAt v y) % c.mns_length) 0))) := by
  have hmh : h ≤ c.mns_length * ((h + c.mns_length - 1) / c.mns_length) :=
    le_ceil_mul h c.mns_length hL
  have hmw : w ≤ c.mns_length * ((w + c.mns_length - 1) / c.mns_length) :=
    le_ceil_mul w c.mns_length hL
  unfold AnotoCodec.encode_bitmatrix
  simp only []
  rw [← List.map_take, List.take_range, Nat.min_eq_left hmh, List.map_map]
  apply List.map_congr_left
  intro y hy
  simp only [Function.comp]
  rw [← List.map_take, List.take_range, Nat.min_eq_left hmw]
  apply List.map_congr_left
  intro x hx
  rw [roll_mns_getD _ _ _ (Nat.mod_lt _ hL), roll_mns_getD _ _ _ (Nat.mod_lt _ hL)]


theorem delta_eq (mns : List Int) (mord : Nat) (sns : List (List Int))
    (pf : List Int) (dr : Int × Int) (c : AnotoCodec)
    (hnew : AnotoCodec.new mns mord sns pf dr = .ok c) (t : Nat) :
    c.delta t = dr.1 + (NumberBasis.new pf).reconstruct1
      ((List.range sns.length).map (fun k =>
        (make_cyclic (sns.getD k []) (mord - 1)).getD (t % (sns.getD k []).length) 0)) := by
  obtain ⟨_, _, _, _, _, _, h7, h8, h9, h10, _⟩ :=
    anoto_new_fields mns mord sns pf dr c hnew
  unfold AnotoCodec.delta
  rw [h7, h8, h9, h10]
  rw [add_comm]
  congr 1
  congr 1
  apply List.ext_getElem
  · simp [List.enum_length]
  · intro k h1 h2
    have hk : k < sns.length := by simpa [List.enum_length] using h1
    simp only [List.getElem_map, List.getElem_enum, List.getElem_range]
    rw [getD_map sns _ k [] hk, List.getD_eq_getElem sns [] hk]
    rfl

theorem digits_zip_range (mord : Nat) (sns : List (List Int)) (pf : List Int)
    (t : Nat) (hord : 2 ≤ mord)
    (hlong : ∀ s ∈ sns, mord - 1 ≤ s.length)
    (hcount : sns.length = pf.length)
    (hent : ∀ k ∈ List.range sns.length, ∀ a ∈ sns.getD k [], 0 ≤ a ∧ a < pf.getD k 0) :
    ∀ q ∈ List.zip ((List.range sns.length).map (fun k =>
        (make_cyclic (sns.getD k []) (mord - 1)).getD (t % (sns.getD k []).length) 0)) pf,
      0 ≤ q.1 ∧ q.1 < q.2 := by
  intro q hq
  obtain ⟨k, hk, hqe⟩ := List.mem_iff_getElem.mp hq
  have hklen : k < sns.length := by
    simp [List.length_zip] at hk
    omega
  have hkpf : k < pf.length := by omega
  rw [List.getElem_zip, List.getElem_map, List.getElem_range] at hqe
  subst hqe
  simp only []
  have hsget : sns.getD k [] = sns[k] := List.getD_eq_getElem _ _ hklen
  have hlen : 0 < (sns.getD k []).length := by
    rw [hsget]
    have := hlong sns[k] (List.getElem_mem hklen)
    omega
  have hmodlt : t % (sns.getD k []).length < (sns.getD k []).length :=
    Nat.mod_lt _ hlen
  have hcyc : (make_cyclic (sns.getD k []) (mord - 1)).getD
      (t % (sns.getD k []).length) 0 =
      (sns.getD k []).getD ((t % (sns.getD k []).length) % (sns.getD k []).length) 0 := by
    apply make_cyclic_getD
    · have := hlong sns[k] (List.getElem_mem hklen)
      rw [hsget]
      omega
    · omega
  rw [hcyc, Nat.mod_eq_of_lt hmodlt]
  have hmem := getD_mem (sns.getD k []) (t % (sns.getD k []).length) 0 hmodlt
  have := hent k (List.mem_range.mpr hklen) _ hmem
  have hpfg : pf.getD k 0 = pf[k] := List.getD_eq_getElem _ _ hkpf
  rw [hpfg] at this
  exact this

/-- The digit list of `delta t` has one digit per SNS and length `|pfactors|`. -/
theorem digits_length (mord : Nat) (sns : List (List Int)) (t : Nat) :
    ((List.range sns.length).map (fun k =>
      (make_cyclic (sns.getD k []) (mord - 1)).getD (t % (sns.getD k []).length) 0)).length =
      sns.length := by
  simp

/-- `delta(t)` always lies in the configured range (claim C10 core). -/
theorem delta_bounds (mns : List Int) (mord : Nat) (sns : List (List Int))
    (pf : List Int) (dr : Int × Int) (c : AnotoCodec)
    (hnew : AnotoCodec.new mns mord sns pf dr = .ok c)
    (hwf : ArgsWf mns mord sns pf dr) (t : Nat) :
    dr.1 ≤ c.delta t ∧ c.delta t ≤ dr.2 := by
  rw [delta_eq mns mord sns pf dr c hnew t]
  have hzip := digits_zip_range mord sns pf t hwf.order_ge hwf.sns_long
    hwf.sns_count hwf.sns_entries
  have hb := nb_reconstruct1_bounds pf hwf.pf_pos _
    (by rw [digits_length]; exact hwf.sns_count) hzip
  have hpp := hwf.pf_prod
  omega

/-- Projecting `delta(t) - delta_min` recovers exactly the SNS digits used to
build it. -/
theorem delta_digits (mns : List Int) (mord : Nat) (sns : List (List Int))
    (pf : List Int) (dr : Int × Int) (c : AnotoCodec)
    (hnew : AnotoCodec.new mns mord sns pf dr = .ok c)
    (hwf : ArgsWf mns mord sns pf dr) (t : Nat) :
    (NumberBasis.new pf).project1 (c.delta t - dr.1) =
      (List.range sns.length).map (fun k =>
        (make_cyclic (sns.getD k []) (mord - 1)).getD (t % (sns.getD k []).length) 0) := by
  rw [delta_eq mns mord sns pf dr c hnew t]
  rw [add_sub_cancel_left]
  exact nb_project_reconstruct1 pf hwf.pf_pos _
    (by rw [digits_length]; exact hwf.sns_count)
    (digits_zip_range mord sns pf t hwf.order_ge hwf.sns_long hwf.sns_count hwf.sns_entries)

theorem rollAt_succ (c : AnotoCodec) (s x : Nat) :
    c.rollAt s (x + 1) = (c.rollAt s x + (c.delta x).toNat) % c.mns_length := by
  show c.next_roll (x + 1) _ = _
  rw [AnotoCodec.next_roll, if_neg (by omega)]
  simp only [Nat.add_sub_cancel]

theorem offset_step (b r d L : Nat) :
    (b + (r + d) % L) % L = ((b + r) % L + d) % L := by
  rw [Nat.add_mod_mod, Nat.mod_add_mod, Nat.add_assoc]

theorem decode_delta_expr (A d L : Nat) (hA : A < L) (hd : d < L) :
    ((((Int.ofNat ((A + d) % L)) - Int.ofNat A).tmod (L : Int)) + (L : Int)).tmod
      (L : Int) = (d : Int) := by
  have hL : (0 : Int) < (L : Int) := by exact_mod_cast (by omega : 0 < L)
  rw [tmod_norm _ _ hL]
  simp only [Int.ofNat_eq_natCast]
  have hk := Nat.div_add_mod (A + d) L
  have hdvd : (L : Int) ∣ ((d : Int) - ((((A + d) % L : Nat) : Int) - (A : Int))) := by
    refine ⟨(((A + d) / L : Nat) : Int), ?_⟩
    push_cast at hk ⊢
    linarith
  have hmod : (((A + d) % L : Nat) : Int) - (A : Int) ≡ (d : Int) [ZMOD (L : Int)] :=
    Int.modEq_iff_dvd.mpr hdvd
  calc ((((A + d) % L : Nat) : Int) - (A : Int)) % (L : Int)
      = (d : Int) % (L : Int) := hmod
    _ = (d : Int) := Int.emod_eq_of_lt (by positivity) (by exact_mod_cast hd)

theorem nb_bases_length (pf : List Int) :
    (NumberBasis.new pf).bases.length = pf.length := by
  simp [NumberBasis.new, basesLoop_length]

/-- Core decoder correctness along one axis: if the rows of `bits` are the
cyclic MNS windows generated by the encoder rolls at positions `p, p+1, …`
(with arbitrary base offset `b` and section offset `s0`), the axis decoder
recovers `p` modulo the product of the SNS lengths. -/
theorem decode_along_spec (mns : List Int) (mord : Nat) (sns : List (List Int))
    (pf : List Int) (dr : Int × Int) (c : AnotoCodec)
    (hnew : AnotoCodec.new mns mord sns pf dr = .ok c)
    (hwf : ArgsWf mns mord sns pf dr)
    (p s0 b : Nat) (bits : List (List Int))
    (hbits : bits = (List.range mord).map (fun i =>
      subSeq (make_cyclic mns mord)
        ((b + c.rollAt s0 (p + i)) % mns.length) mord)) :
    c.decode_position_along_direction bits =
      .ok (p % (sns.map List.length).prod) := by
  obtain ⟨h1, h2, h3, h4, h5, h6, h7, h8, h9, h10, h11⟩ :=
    anoto_new_fields mns mord sns pf dr c hnew
  have hLpos : 0 < mns.length := by
    have := hwf.mns_len
    have := hwf.order_ge
    omega
  have hdelta : ∀ t, 0 ≤ c.delta t ∧ c.delta t < (mns.length : Int) := by
    intro t
    obtain ⟨hl, hr⟩ := delta_bounds mns mord sns pf dr c hnew hwf t
    have hmin := hwf.dr_min
    have hmax := hwf.dr_max
    constructor <;> omega
  have hdToNat : ∀ t, ((c.delta t).toNat : Int) = c.delta t :=
    fun t => Int.toNat_of_nonneg (hdelta t).1
  have hdLt : ∀ t, (c.delta t).toNat < mns.length := by
    intro t
    have := (hdelta t).2
    have := (hdelta t).1
    omega
  have haLt : ∀ i : Nat, (b + c.rollAt s0 (p + i)) % mns.length < mns.length :=
    fun i => Nat.mod_lt _ hLpos
  have hstep : ∀ i : Nat,
      (b + c.rollAt s0 (p + (i + 1))) % mns.length =
        ((b + c.rollAt s0 (p + i)) % mns.length + (c.delta (p + i)).toNat) %
          mns.length := by
    intro i
    have hpi : p + (i + 1) = (p + i) + 1 := by ring
    rw [hpi, rollAt_succ, h2]
    exact offset_step b (c.rollAt s0 (p + i)) ((c.delta (p + i)).toNat) mns.length
  -- Step 1: all MNS lookups succeed and return the window offsets.
  have hfind : bits.mapM (fun row => c.find_in_mns_cyclic row) =
      .ok ((List.range mord).map (fun i =>
        (b + c.rollAt s0 (p + i)) % mns.length)) := by
    apply mapM_ok_of_forall₂
    rw [hbits, List.forall₂_iff_get]
    refine ⟨by simp, ?_⟩
    intro i hi1 hi2
    simp only [List.get_eq_getElem, List.getElem_map, List.getElem_range]
    unfold AnotoCodec.find_in_mns_cyclic
    rw [h3, find_window mns mord _ hwf.mns_len hLpos (haLt i) hwf.mns_nodup]
  unfold AnotoCodec.decode_position_along_direction
  rw [hfind]
  simp only []
  -- Step 2: the reconstructed delta list is the true delta list.
  have hlocsZ : (((List.range mord).map (fun i =>
      (b + c.rollAt s0 (p + i)) % mns.length)).map (fun v => Int.ofNat v)).length
      = mord := by simp
  have hdeltae : (List.range ((((List.range mord).map (fun i =>
          (b + c.rollAt s0 (p + i)) % mns.length)).map
            (fun v => Int.ofNat v)).length - 1)).map
        (fun i =>
          (((((List.range mord).map (fun i =>
              (b + c.rollAt s0 (p + i)) % mns.length)).map
                (fun v => Int.ofNat v)).getD (i + 1) 0 -
            (((List.range mord).map (fun i =>
              (b + c.rollAt s0 (p + i)) % mns.length)).map
                (fun v => Int.ofNat v)).getD i 0).tmod (c.mns_length : Int) +
            (c.mns_length : Int)).tmod (c.mns_length : Int)) =
      (List.range (mord - 1)).map (fun i => c.delta (p + i)) := by
    rw [hlocsZ]
    apply List.map_congr_left
    intro i hi
    have hio : i < mord - 1 := List.mem_range.mp hi
    rw [List.map_map]
    rw [getD_range_map _ _ _ _ (by omega : i + 1 < mord),
      getD_range_map _ _ _ _ (by omega : i < mord)]
    simp only [Function.comp]
    rw [h2, hstep i]
    rw [decode_delta_expr _ _ _ (haLt i) (hdLt (p + i))]
    exact hdToNat (p + i)
  rw [hdeltae]
  -- Step 3: the range check passes.
  have hcheck : ¬(((List.range (mord - 1)).map (fun i => c.delta (p + i))).any
      (fun d => d < c.delta_range.1 ∨ d > c.delta_range.2) = true) := by
    rw [List.any_eq_true]
    rintro ⟨x, hx, hpred⟩
    obtain ⟨i, hi, rfl⟩ := List.mem_map.mp hx
    obtain ⟨hl, hr⟩ := delta_bounds mns mord sns pf dr c hnew hwf (p + i)
    rw [h10] at hpred
    simp only [decide_eq_true_eq] at hpred
    rcases hpred with hp1 | hp1
    · omega
    · omega
  rw [if_neg hcheck]
  -- Step 4: the projected digit columns are the SNS windows at p mod L_i.
  have hcols : colsN c.num_basis.bases.length
      ((((List.range (mord - 1)).map (fun i => c.delta (p + i))).map
        (fun d => d - c.delta_range.1)).map (fun d => c.num_basis.project1 d)) =
      (List.range sns.length).map (fun k =>
        (List.range (mord - 1)).map (fun i =>
          (make_cyclic (sns.getD k []) (mord - 1)).getD
            ((p + i) % (sns.getD k []).length) 0)) := by
    rw [h9, h10, nb_bases_length, ← hwf.sns_count]
    unfold colsN
    apply List.map_congr_left
    intro k hk
    have hkK : k < sns.length := List.mem_range.mp hk
    rw [List.map_map, List.map_map, List.map_map]
    apply List.map_congr_left
    intro i _
    simp only [Function.comp]
    rw [delta_digits mns mord sns pf dr c hnew hwf (p + i)]
    rw [getD_range_map _ _ _ _ hkK]
  rw [hcols]
  -- Step 5: all SNS lookups succeed and return p mod L_i.
  have hlenpos : ∀ k, k < sns.length → 0 < (sns.getD k []).length := by
    intro k hk
    have h := hwf.sns_long (sns.getD k []) (by
      rw [List.getD_eq_getElem _ _ hk]
      exact List.getElem_mem hk)
    have := hwf.order_ge
    omega
  have hfind2 : (((List.range sns.length).map (fun k =>
      (List.range (mord - 1)).map (fun i =>
        (make_cyclic (sns.getD k []) (mord - 1)).getD
          ((p + i) % (sns.getD k []).length) 0))).enum).mapM
      (fun pr => c.find_in_sns_cyclic pr.1 pr.2) =
      .ok ((List.range sns.length).map (fun k => p % (sns.getD k []).length)) := by
    apply mapM_ok_of_forall₂
    rw [List.forall₂_iff_get]
    refine ⟨by simp [List.enum_length], ?_⟩
    intro k hk1 hk2
    have hkK : k < sns.length := by simpa [List.enum_length] using hk1
    simp only [List.get_eq_getElem, List.getElem_enum, List.getElem_map,
      List.getElem_range]
    have hwin : (List.range (mord - 1)).map (fun i =>
        (make_cyclic (sns.getD k []) (mord - 1)).getD
          ((p + i) % (sns.getD k []).length) 0) =
        subSeq (make_cyclic (sns.getD k []) (mord - 1))
          (p % (sns.getD k []).length) (mord - 1) := by
      rw [window_eq_map _ _ _ (hwf.sns_long (sns.getD k []) (by
          rw [List.getD_eq_getElem _ _ hkK]
          exact List.getElem_mem hkK)) (hlenpos k hkK)
          (Nat.mod_lt _ (hlenpos k hkK))]
      apply List.map_congr_left
      intro j _
      rw [Nat.mod_add_mod]
      have hol : mord - 1 ≤ (sns.getD k []).length :=
        hwf.sns_long (sns.getD k []) (by
          rw [List.getD_eq_getElem _ _ hkK]
          exact List.getElem_mem hkK)
      rw [make_cyclic_getD _ _ _ (by omega)
        (by have := Nat.mod_lt (p + j) (hlenpos k hkK); omega),
        Nat.mod_eq_of_lt (Nat.mod_lt _ (hlenpos k hkK))]
    rw [hwin]
    unfold AnotoCodec.find_in_sns_cyclic
    rw [h8, getD_map sns _ k [] hkK, List.getD_eq_getElem sns [] hkK]
    have hol : mord - 1 ≤ sns[k].length :=
      hwf.sns_long sns[k] (List.getElem_mem hkK)
    have hlp : 0 < sns[k].length := by
      have := hwf.order_ge
      omega
    have hnd := hwf.sns_nodup k (List.mem_range.mpr hkK)
    rw [List.getD_eq_getElem sns [] hkK] at hnd
    rw [find_window sns[k] (mord - 1) (p % sns[k].length) hol hlp
      (Nat.mod_lt _ hlp) hnd]
  rw [hfind2]
  simp only []
  -- Step 6: the CRT solution is p mod the product of the SNS lengths.
  have hΛpos : 0 < (sns.map List.length).prod := by
    apply List.prod_pos
    intro a ha
    obtain ⟨s, hs, rfl⟩ := List.mem_map.mp ha
    have := hwf.sns_long s hs
    have := hwf.order_ge
    omega
  have hsolve : c.crt.solve ((((List.range sns.length).map (fun k =>
      p % (sns.getD k []).length)).map (fun v => Int.ofNat v))) =
      Int.ofNat (p % (sns.map List.length).prod) := by
    have hlspos : ∀ x ∈ sns.map (fun s => Int.ofNat s.length), 0 < x := by
      intro x hx
      obtain ⟨s, hs, rfl⟩ := List.mem_map.mp hx
      have := hwf.sns_long s hs
      have := hwf.order_ge
      simp only [Int.ofNat_eq_natCast]
      exact_mod_cast (by omega : 0 < s.length)
    have hlslen : (sns.map (fun s => Int.ofNat s.length)).length = sns.length := by
      simp
    have hrs : (((List.range sns.length).map (fun k =>
        p % (sns.getD k []).length)).map (fun v => Int.ofNat v)).length =
        (sns.map (fun s => Int.ofNat s.length)).length := by
      simp
    have hgls : ∀ i, i < sns.length →
        (sns.map (fun s => Int.ofNat s.length)).getD i 0 =
          Int.ofNat (sns.getD i []).length := by
      intro i hi
      rw [getD_map sns _ i 0 hi, List.getD_eq_getElem sns [] hi]
    have hgrs : ∀ i, i < sns.length →
        ((((List.range sns.length).map (fun k =>
          p % (sns.getD k []).length)).map (fun v => Int.ofNat v))).getD i 0 =
          Int.ofNat (p % (sns.getD i []).length) := by
      intro i hi
      rw [List.map_map]
      exact getD_range_map _ _ _ _ hi
    have hbnd : ∀ i, i < (sns.map (fun s => Int.ofNat s.length)).length →
        0 ≤ (((List.range sns.length).map (fun k =>
            p % (sns.getD k []).length)).map (fun v => Int.ofNat v)).getD i 0 ∧
          (((List.range sns.length).map (fun k =>
            p % (sns.getD k []).length)).map (fun v => Int.ofNat v)).getD i 0 <
            (sns.map (fun s => Int.ofNat s.length)).getD i 0 := by
      intro i hi
      have hiK : i < sns.length := by simpa using hi
      rw [hgrs i hiK, hgls i hiK]
      simp only [Int.ofNat_eq_natCast]
      constructor
      · exact_mod_cast Nat.zero_le _
      · exact_mod_cast Nat.mod_lt _ (hlenpos i hiK)
    obtain ⟨hrange, hres, huniq⟩ := crt_solve_spec
      (sns.map (fun s => Int.ofNat s.length)) c.crt h11 hlspos hwf.len_cop
      _ hrs hbnd
    have hprodcast : (sns.map (fun s => Int.ofNat s.length)).prod =
        Int.ofNat (sns.map List.length).prod := by
      rw [show sns.map (fun s => Int.ofNat s.length) =
          (sns.map List.length).map (fun x => Int.ofNat x) from by
        rw [List.map_map]; rfl]
      simp only [Int.ofNat_eq_natCast]
      exact (Nat.cast_list_prod _).symm
    symm
    apply huniq
    · simp only [Int.ofNat_eq_natCast]
      exact_mod_cast Nat.zero_le _
    · rw [hprodcast]
      simp only [Int.ofNat_eq_natCast]
      exact_mod_cast Nat.mod_lt _ hΛpos
    · intro i hi
      have hiK : i < sns.length := by simpa using hi
      rw [hgls i hiK, hgrs i hiK]
      simp only [Int.ofNat_eq_natCast]
      have hdvd : (sns.getD i []).length ∣ (sns.map List.length).prod := by
        apply List.dvd_prod
        rw [List.getD_eq_getElem sns [] hiK]
        exact List.mem_map.mpr ⟨sns[i], List.getElem_mem hiK, rfl⟩
      rw [show ((p % (sns.map List.length).prod : Nat) : Int) %
            ((sns.getD i []).length : Int) =
          (((p % (sns.map List.length).prod) % (sns.getD i []).length : Nat) : Int)
          from by push_cast; rfl]
      rw [Nat.mod_mod_of_dvd p hdvd]
  rw [hsolve]
  rw [show (Int.ofNat (p % (sns.map List.length).prod)).toNat =
      p % (sns.map List.length).prod from Int.toNat_ofNat _]

theorem drop_take_range_map {α : Type} (W x n : Nat) (g : Nat → α)
    (h : x + n ≤ W) :
    (((List.range W).map g).drop x).take n = (List.range n).map (fun j => g (x + j)) := by
  apply List.ext_getElem
  · simp
    omega
  · intro j h1 h2
    have hj : j < n := by simpa using h2
    simp only [List.getElem_take, List.getElem_drop, List.getElem_map,
      List.getElem_range]

/-- Explicit form of an n×n sub-window of an encoded bitmatrix. -/
theorem subMatrix_encode (c : AnotoCodec) (hL : 0 < c.mns_length)
    (H W u v y x n : Nat) (hy : y + n ≤ H) (hx : x + n ≤ W) :
    subMatrix (c.encode_bitmatrix (H, W) (u, v)) y x n =
      (List.range n).map (fun i => (List.range n).map (fun j =>
        (c.mns.getD (((y + i) % c.mns_length + c.rollAt u (x + j)) % c.mns_length) 0,
         c.mns.getD (((x + j) % c.mns_length + c.rollAt v (y + i)) % c.mns_length) 0))) := by
  rw [encode_eq c hL H W u v]
  unfold subMatrix
  rw [drop_take_range_map H y n _ hy, List.map_map]
  apply List.map_congr_left
  intro i _
  simp only [Function.comp]
  rw [drop_take_range_map W x n _ hx]

/-- Decoding an mns_order × mns_order window of an encoded bitmatrix at
window corner (y, x) returns the position modulo the product of the SNS
lengths. -/
theorem decode_position_window (mns : List Int) (mord : Nat) (sns : List (List Int))
    (pf : List Int) (dr : Int × Int) (c : AnotoCodec)
    (hnew : AnotoCodec.new mns mord sns pf dr = .ok c)
    (hwf : ArgsWf mns mord sns pf dr)
    (H W u v x y : Nat) (hy : y + mord ≤ H) (hx : x + mord ≤ W) :
    c.decode_position (subMatrix (c.encode_bitmatrix (H, W) (u, v)) y x mord) =
      .ok (x % (sns.map List.length).prod, y % (sns.map List.length).prod) := by
  obtain ⟨h1, h2, h3, h4, h5, h6, h7, h8, h9, h10, h11⟩ :=
    anoto_new_fields mns mord sns pf dr c hnew
  have hLpos : 0 < mns.length := by
    have := hwf.mns_len
    have := hwf.order_ge
    omega
  have hLpos2 : 0 < c.mns_length := by rw [h2]; exact hLpos
  have hmord2 : 2 ≤ mord := hwf.order_ge
  rw [subMatrix_encode c hLpos2 H W u v y x mord hy hx]
  set W0 := (List.range mord).map (fun i => (List.range mord).map (fun j =>
      (c.mns.getD (((y + i) % c.mns_length + c.rollAt u (x + j)) % c.mns_length) 0,
       c.mns.getD (((x + j) % c.mns_length + c.rollAt v (y + i)) % c.mns_length) 0)))
    with hW0
  have hW0len : W0.length = mord := by simp [hW0]
  have hW0row : ∀ i, i < mord → W0.getD i [] = (List.range mord).map (fun j =>
      (c.mns.getD (((y + i) % c.mns_length + c.rollAt u (x + j)) % c.mns_length) 0,
       c.mns.getD (((x + j) % c.mns_length + c.rollAt v (y + i)) % c.mns_length) 0)) := by
    intro i hi
    rw [hW0]
    exact getD_range_map _ _ _ _ hi
  have hncols : ncolsA W0 = mord := by
    unfold ncolsA
    have h0 : W0.headD [] = W0.getD 0 [] := by
      cases W0 with
      | nil => rfl
      | cons a t => rfl
    rw [h0, hW0row 0 (by omega)]
    simp
  unfold AnotoCodec.decode_position
  have hshape : c.assert_bitmatrix_shape W0 none = .ok () := by
    unfold AnotoCodec.assert_bitmatrix_shape
    rw [if_neg]
    push_neg
    simp only [Option.getD_none]
    rw [hW0len, hncols, h4]
    omega
  rw [hshape]
  simp only []
  -- the take mord slicing is the identity on the mord×mord window
  have hsliced : (W0.take c.mns_order).map (fun row => row.take c.mns_order) = W0 := by
    rw [h4, List.take_of_length_le (by rw [hW0len])]
    apply map_id_of_mem
    intro row hrow
    rw [hW0] at hrow
    obtain ⟨i, _, rfl⟩ := List.mem_map.mp hrow
    exact List.take_of_length_le (by simp)
  rw [hsliced]
  -- x axis
  have hxbits : colsN c.mns_order (W0.map (fun row => row.map Prod.fst)) =
      (List.range mord).map (fun j =>
        subSeq (make_cyclic mns mord) ((y + c.rollAt u (x + j)) % mns.length) mord) := by
    rw [h4]
    unfold colsN
    apply List.map_congr_left
    intro j hj
    have hjm : j < mord := List.mem_range.mp hj
    rw [hW0, List.map_map, List.map_map]
    rw [window_eq_map mns mord _ hwf.mns_len hLpos (Nat.mod_lt _ hLpos)]
    apply List.map_congr_left
    intro i hi
    have him : i < mord := List.mem_range.mp hi
    simp only [Function.comp]
    rw [List.map_map, getD_range_map _ _ _ _ hjm]
    simp only [Function.comp]
    rw [h1, h2]
    congr 1
    rw [Nat.mod_add_mod, Nat.mod_add_mod]
    congr 1
    omega
  have hybits : W0.map (fun row => row.map Prod.snd) =
      (List.range mord).map (fun i =>
        subSeq (make_cyclic mns mord) ((x + c.rollAt v (y + i)) % mns.length) mord) := by
    rw [hW0, List.map_map]
    apply List.map_congr_left
    intro i hi
    have him : i < mord := List.mem_range.mp hi
    simp only [Function.comp]
    rw [List.map_map]
    rw [window_eq_map mns mord _ hwf.mns_len hLpos (Nat.mod_lt _ hLpos)]
    apply List.map_congr_left
    intro j hj
    have hjm : j < mord := List.mem_range.mp hj
    simp only [Function.comp]
    rw [h1, h2]
    congr 1
    rw [Nat.mod_add_mod, Nat.mod_add_mod]
    congr 1
    omega
  have hdx : c.decode_position_along_direction
      (colsN c.mns_order (W0.map (fun row => row.map Prod.fst))) =
      .ok (x % (sns.map List.length).prod) := by
    rw [hxbits]
    exact decode_along_spec mns mord sns pf dr c hnew hwf x u y _ rfl
  have hdy : c.decode_position_along_direction
      (W0.map (fun row => row.map Prod.snd)) =
      .ok (y % (sns.map List.length).prod) := by
    rw [hybits]
    exact decode_along_spec mns mord sns pf dr c hnew hwf y v x _ rfl
  rw [hdx, hdy]

theorem cast_mod_sub_dvd (m L : Nat) :
    (L : Int) ∣ (((m % L : Nat) : Int) - ((m : Nat) : Int)) := by
  have hk := Nat.div_add_mod m L
  refine ⟨-(((m / L : Nat)) : Int), ?_⟩
  have hc : ((L * (m / L) + m % L : Nat) : Int) = ((m : Nat) : Int) := by
    exact_mod_cast congrArg (fun z : Nat => (z : Int)) hk
  push_cast at hc ⊢
  linarith

/-- Decoding the section from an encoder window together with the true
position returns the section coordinates modulo the MNS length. -/
theorem decode_section_window (mns : List Int) (mord : Nat) (sns : List (List Int))
    (pf : List Int) (dr : Int × Int) (c : AnotoCodec)
    (hnew : AnotoCodec.new mns mord sns pf dr = .ok c)
    (hwf : ArgsWf mns mord sns pf dr)
    (H W u v x y : Nat) (hy : y + mord ≤ H) (hx : x + mord ≤ W) :
    c.decode_section (subMatrix (c.encode_bitmatrix (H, W) (u, v)) y x mord) (x, y) =
      .ok (u % mns.length, v % mns.length) := by
  obtain ⟨h1, h2, h3, h4, h5, h6, h7, h8, h9, h10, h11⟩ :=
    anoto_new_fields mns mord sns pf dr c hnew
  have hLpos : 0 < mns.length := by
    have := hwf.mns_len
    have := hwf.order_ge
    omega
  have hLpos2 : 0 < c.mns_length := by rw [h2]; exact hLpos
  have hmord2 : 2 ≤ mord := hwf.order_ge
  rw [subMatrix_encode c hLpos2 H W u v y x mord hy hx]
  set W0 := (List.range mord).map (fun i => (List.range mord).map (fun j =>
      (c.mns.getD (((y + i) % c.mns_length + c.rollAt u (x + j)) % c.mns_length) 0,
       c.mns.getD (((x + j) % c.mns_length + c.rollAt v (y + i)) % c.mns_length) 0)))
    with hW0
  have hW0len : W0.length = mord := by simp [hW0]
  have hW0row : ∀ i, i < mord → W0.getD i [] = (List.range mord).map (fun j =>
      (c.mns.getD (((y + i) % c.mns_length + c.rollAt u (x + j)) % c.mns_length) 0,
       c.mns.getD (((x + j) % c.mns_length + c.rollAt v (y + i)) % c.mns_length) 0)) := by
    intro i hi
    rw [hW0]
    exact getD_range_map _ _ _ _ hi
  have hncols : ncolsA W0 = mord := by
    unfold ncolsA
    have h0 : W0.headD [] = W0.getD 0 [] := by
      cases W0 with
      | nil => rfl
      | cons a t => rfl
    rw [h0, hW0row 0 (by omega)]
    simp
  unfold AnotoCodec.decode_section
  have hshape : c.assert_bitmatrix_shape W0 none = .ok () := by
    unfold AnotoCodec.assert_bitmatrix_shape
    rw [if_neg]
    push_neg
    simp only [Option.getD_none]
    rw [hW0len, hncols, h4]
    omega
  rw [hshape]
  simp only []
  -- the two probe sequences are cyclic MNS windows
  have hpx : (W0.take c.mns_order).map (fun row => (row.getD 0 (0, 0)).1) =
      subSeq (make_cyclic mns mord) ((y + c.rollAt u x) % mns.length) mord := by
    rw [h4, List.take_of_length_le (by rw [hW0len]), hW0, List.map_map]
    rw [window_eq_map mns mord _ hwf.mns_len hLpos (Nat.mod_lt _ hLpos)]
    apply List.map_congr_left
    intro i hi
    simp only [Function.comp]
    rw [getD_range_map _ _ _ _ (by omega : 0 < mord)]
    simp only []
    rw [h1, h2]
    congr 1
    rw [Nat.add_zero, Nat.mod_add_mod, Nat.mod_add_mod]
    congr 1
    omega
  have hpy : ((W0.getD 0 []).take c.mns_order).map (fun q => q.2) =
      subSeq (make_cyclic mns mord) ((x + c.rollAt v y) % mns.length) mord := by
    rw [h4, hW0row 0 (by omega), List.take_of_length_le (by simp), List.map_map]
    rw [window_eq_map mns mord _ hwf.mns_len hLpos (Nat.mod_lt _ hLpos)]
    apply List.map_congr_left
    intro j hj
    simp only [Function.comp]
    rw [h1, h2]
    congr 1
    rw [Nat.add_zero, Nat.mod_add_mod, Nat.mod_add_mod]
    congr 1
    omega
  rw [hpx, hpy]
  have hfx : c.find_in_mns_cyclic
      (subSeq (make_cyclic mns mord) ((y + c.rollAt u x) % mns.length) mord) =
      .ok ((y + c.rollAt u x) % mns.length) := by
    unfold AnotoCodec.find_in_mns_cyclic
    rw [h3, find_window mns mord _ hwf.mns_len hLpos (Nat.mod_lt _ hLpos)
      hwf.mns_nodup]
  have hfy : c.find_in_mns_cyclic
      (subSeq (make_cyclic mns mord) ((x + c.rollAt v y) % mns.length) mord) =
      .ok ((x + c.rollAt v y) % mns.length) := by
    unfold AnotoCodec.find_in_mns_cyclic
    rw [h3, find_window mns mord _ hwf.mns_len hLpos (Nat.mod_lt _ hLpos)
      hwf.mns_nodup]
  rw [hfx, hfy]
  simp only []
  -- arithmetic: the decoded coordinates are u mod L and v mod L
  have harith : ∀ (s0 bb pp : Nat),
      ((((bb + c.rollAt s0 pp) % mns.length : Nat) : Int) - (bb : Int) -
        ((c.integrate_roll pp 0 : Nat) : Int)).emod (mns.length : Int) =
        ((s0 % mns.length : Nat) : Int) := by
    intro s0 bb pp
    set SX := ((List.range pp).map (fun t => (c.delta t).toNat)).sum with hSX
    have hroll : c.rollAt s0 pp = (s0 + SX) % mns.length := by
      rw [rollAt_eq, h2]
    have hint : c.integrate_roll pp 0 = SX % mns.length := by
      rw [integrate_roll_eq, h2]
      simp
    rw [hroll, hint]
    have hcomb : (bb + (s0 + SX) % mns.length) % mns.length =
        (bb + (s0 + SX)) % mns.length := Nat.add_mod_mod _ _ _
    rw [hcomb]
    have hd1 : ((mns.length : Nat) : Int) ∣
        (((bb + (s0 + SX)) % mns.length : Nat) : Int) - ((bb + (s0 + SX) : Nat) : Int) :=
      cast_mod_sub_dvd _ _
    have hd2 : ((mns.length : Nat) : Int) ∣
        ((SX % mns.length : Nat) : Int) - ((SX : Nat) : Int) :=
      cast_mod_sub_dvd _ _
    have hd3 : ((mns.length : Nat) : Int) ∣
        ((s0 % mns.length : Nat) : Int) - ((s0 : Nat) : Int) :=
      cast_mod_sub_dvd _ _
    have hkey : ((mns.length : Nat) : Int) ∣
        ((((bb + (s0 + SX)) % mns.length : Nat) : Int) - (bb : Int) -
          ((SX % mns.length : Nat) : Int)) - ((s0 % mns.length : Nat) : Int) := by
      have heq : ((((bb + (s0 + SX)) % mns.length : Nat) : Int) - (bb : Int) -
          ((SX % mns.length : Nat) : Int)) - ((s0 % mns.length : Nat) : Int) =
          ((((bb + (s0 + SX)) % mns.length : Nat) : Int) -
            ((bb + (s0 + SX) : Nat) : Int)) -
          (((SX % mns.length : Nat) : Int) - ((SX : Nat) : Int)) -
          (((s0 % mns.length : Nat) : Int) - ((s0 : Nat) : Int)) := by
        push_cast
        ring
      rw [heq]
      exact dvd_sub (dvd_sub hd1 hd2) hd3
    have hmodeq : ((((bb + (s0 + SX)) % mns.length : Nat) : Int) - (bb : Int) -
        ((SX % mns.length : Nat) : Int)) ≡ ((s0 % mns.length : Nat) : Int)
        [ZMOD ((mns.length : Nat) : Int)] := by
      rw [Int.modEq_iff_dvd]
      exact dvd_neg.mp (by rw [neg_sub]; exact hkey)
    calc ((((bb + (s0 + SX)) % mns.length : Nat) : Int) - (bb : Int) -
        ((SX % mns.length : Nat) : Int)).emod (mns.length : Int)
        = ((s0 % mns.length : Nat) : Int) % (mns.length : Int) := hmodeq
      _ = ((s0 % mns.length : Nat) : Int) := Int.emod_eq_of_lt
          (by exact_mod_cast Nat.zero_le _)
          (by exact_mod_cast Nat.mod_lt _ hLpos)
  rw [h2]
  rw [harith u y x, harith v x y]
  simp only [Int.toNat_ofNat]

theorem encode_getM (c : AnotoCodec) (hL : 0 < c.mns_length) (H W u v y x : Nat)
    (hy : y < H) (hx : x < W) :
    getM (c.encode_bitmatrix (H, W) (u, v)) y x ((0 : Int), (0 : Int)) =
      (c.mns.getD ((y % c.mns_length + c.rollAt u x) % c.mns_length) 0,
       c.mns.getD ((x % c.mns_length + c.rollAt v y) % c.mns_length) 0) := by
  rw [encode_eq c hL H W u v]
  unfold getM
  rw [getD_range_map _ _ _ _ hy, getD_range_map _ _ _ _ hx]

/-- Encoder invariant, x-channel: every vertical mns_order-slice of channel 0
is a cyclic MNS window, whose offset advances by `delta x` (as cast by the
encoder) between adjacent columns. -/
theorem encode_slice_x (mns : List Int) (mord : Nat) (sns : List (List Int))
    (pf : List Int) (dr : Int × Int) (c : AnotoCodec)
    (hnew : AnotoCodec.new mns mord sns pf dr = .ok c)
    (hwf : ArgsWf mns mord sns pf dr)
    (H W u v y x : Nat) (hy : y + mord ≤ H) (hx : x < W) :
    ((List.range mord).map (fun i =>
        (getM (c.encode_bitmatrix (H, W) (u, v)) (y + i) x ((0 : Int), (0 : Int))).1) =
      subSeq (make_cyclic mns mord) ((y + c.rollAt u x) % mns.length) mord) ∧
    (y + c.rollAt u x) % mns.length < mns.length ∧
    (y + c.rollAt u (x + 1)) % mns.length =
      (((y + c.rollAt u x) % mns.length) + (c.delta x).toNat) % mns.length := by
  obtain ⟨h1, h2, h3, h4, h5, h6, h7, h8, h9, h10, h11⟩ :=
    anoto_new_fields mns mord sns pf dr c hnew
  have hLpos : 0 < mns.length := by
    have := hwf.mns_len
    have := hwf.order_ge
    omega
  have hLpos2 : 0 < c.mns_length := by rw [h2]; exact hLpos
  refine ⟨?_, Nat.mod_lt _ hLpos, ?_⟩
  · rw [window_eq_map mns mord _ hwf.mns_len hLpos (Nat.mod_lt _ hLpos)]
    apply List.map_congr_left
    intro i hi
    have him : i < mord := List.mem_range.mp hi
    rw [encode_getM c hLpos2 H W u v (y + i) x (by omega) hx]
    simp only []
    rw [h1, h2]
    congr 1
    rw [Nat.mod_add_mod, Nat.mod_add_mod]
    congr 1
    omega
  · rw [rollAt_succ, h2]
    exact offset_step y (c.rollAt u x) ((c.delta x).toNat) mns.length

/-- Encoder invariant, y-channel: every horizontal mns_order-slice of
channel 1 is a cyclic MNS window, whose offset advances by `delta y` between
adjacent rows. -/
theorem encode_slice_y (mns : List Int) (mord : Nat) (sns : List (List Int))
    (pf : List Int) (dr : Int × Int) (c : AnotoCodec)
    (hnew : AnotoCodec.new mns mord sns pf dr = .ok c)
    (hwf : ArgsWf mns mord sns pf dr)
    (H W u v y x : Nat) (hy : y < H) (hx : x + mord ≤ W) :
    ((List.range mord).map (fun j =>
        (getM (c.encode_bitmatrix (H, W) (u, v)) y (x + j) ((0 : Int), (0 : Int))).2) =
      subSeq (make_cyclic mns mord) ((x + c.rollAt v y) % mns.length) mord) ∧
    (x + c.rollAt v y) % mns.length < mns.length ∧
    (x + c.rollAt v (y + 1)) % mns.length =
      (((x + c.rollAt v y) % mns.length) + (c.delta y).toNat) % mns.length := by
  obtain ⟨h1, h2, h3, h4, h5, h6, h7, h8, h9, h10, h11⟩ :=
    anoto_new_fields mns mord sns pf dr c hnew
  have hLpos : 0 < mns.length := by
    have := hwf.mns_len
    have := hwf.order_ge
    omega
  have hLpos2 : 0 < c.mns_length := by rw [h2]; exact hLpos
  refine ⟨?_, Nat.mod_lt _ hLpos, ?_⟩
  · rw [window_eq_map mns mord _ hwf.mns_len hLpos (Nat.mod_lt _ hLpos)]
    apply List.map_congr_left
    intro j hj
    have hjm : j < mord := List.mem_range.mp hj
    rw [encode_getM c hLpos2 H W u v y (x + j) hy (by omega)]
    simp only []
    rw [h1, h2]
    congr 1
    rw [Nat.mod_add_mod, Nat.mod_add_mod]
    congr 1
    omega
  · rw [rollAt_succ, h2]
    exact offset_step x (c.rollAt v y) ((c.delta y).toNat) mns.length

/-! ## helpers.rs lemmas: packing round-trips and rotation -/

theorem b2n_n2b_cell (v : Nat) (hv : v < 4) :
    ((((v &&& 1 : Nat) : Int).emod 256).toNat |||
      (((((v >>> 1) &&& 1 : Nat) : Int).emod 256).toNat <<< 1) % 256) = v := by
  interval_cases v <;> decide

theorem bits_to_num_num_to_bits (m : Arr2) (h : ∀ row ∈ m, ∀ v ∈ row, v < 4) :
    bits_to_num (num_to_bits m) = m := by
  unfold bits_to_num num_to_bits
  rw [List.map_map]
  apply map_id_of_mem
  intro row hrow
  simp only [Function.comp]
  rw [List.map_map]
  apply map_id_of_mem
  intro v hv
  simp only [Function.comp]
  exact b2n_n2b_cell v (h row hrow v hv)

theorem n2b_b2n_cell (a b : Int) (h1 : a = 0 ∨ a = 1) (h2 : b = 0 ∨ b = 1) :
    (((((a.emod 256).toNat ||| (((b.emod 256).toNat <<< 1) % 256)) &&& 1 : Nat) : Int),
      (((((a.emod 256).toNat ||| (((b.emod 256).toNat <<< 1) % 256)) >>> 1) &&& 1 : Nat) : Int))
      = (a, b) := by
  rcases h1 with rfl | rfl <;> rcases h2 with rfl | rfl <;> decide

theorem num_to_bits_bits_to_num (b : Arr3)
    (h : ∀ row ∈ b, ∀ q ∈ row, (q.1 = 0 ∨ q.1 = 1) ∧ (q.2 = 0 ∨ q.2 = 1)) :
    num_to_bits (bits_to_num b) = b := by
  unfold bits_to_num num_to_bits
  rw [List.map_map]
  apply map_id_of_mem
  intro row hrow
  simp only [Function.comp]
  rw [List.map_map]
  apply map_id_of_mem
  intro q hq
  obtain ⟨a, b⟩ := q
  simp only [Function.comp]
  exact n2b_b2n_cell a b (h row hrow (a, b) hq).1 (h row hrow (a, b) hq).2

theorem build_length {α : Type} (m n : Nat) (f : Nat → Nat → α) :
    (buildMat m n f).length = m := by
  simp [buildMat]

theorem getM_build {α : Type} (m n : Nat) (f : Nat → Nat → α) (r c : Nat) (d : α)
    (hr : r < m) (hc : c < n) : getM (buildMat m n f) r c d = f r c := by
  unfold getM buildMat
  rw [getD_range_map _ _ _ _ hr, getD_range_map _ _ _ _ hc]

theorem build_congr {α : Type} (m n : Nat) (f g : Nat → Nat → α)
    (h : ∀ r, r < m → ∀ c, c < n → f r c = g r c) :
    buildMat m n f = buildMat m n g := by
  unfold buildMat
  apply List.map_congr_left
  intro r hr
  apply List.map_congr_left
  intro c hc
  exact h r (List.mem_range.mp hr) c (List.mem_range.mp hc)

theorem ncols_of_square {α : Type} (X : List (List α))
    (hsq : ∀ row ∈ X, row.length = X.length) : ncolsA X = X.length := by
  cases X with
  | nil => rfl
  | cons a t => exact hsq a (by simp)

theorem square_build {α : Type} (n : Nat) (f : Nat → Nat → α) :
    ∀ row ∈ buildMat n n f, row.length = (buildMat n n f).length := by
  intro row hrow
  unfold buildMat at hrow ⊢
  obtain ⟨i, _, rfl⟩ := List.mem_map.mp hrow
  simp

theorem build_getM_id {α : Type} (X : List (List α)) (d : α)
    (hsq : ∀ row ∈ X, row.length = X.length) :
    buildMat X.length X.length (fun r c => getM X r c d) = X := by
  unfold buildMat
  apply List.ext_getElem
  · simp
  · intro i h1 h2
    have hi : i < X.length := by simpa using h1
    rw [List.getElem_map, List.getElem_range]
    apply List.ext_getElem
    · have := hsq X[i] (List.getElem_mem hi)
      simp [this]
    · intro j h3 h4
      have hj : j < X.length := by simpa using h3
      rw [List.getElem_map, List.getElem_range]
      show (X.getD i []).getD j d = X[i][j]
      rw [List.getD_eq_getElem X [] hi, List.getD_eq_getElem _ _ (by
        rw [hsq X[i] (List.getElem_mem hi)]
        exact hj)]

theorem natcast_emod4 (a : Nat) : (((a : Nat) : Int).emod 4).toNat = a % 4 := by
  have : ((a : Nat) : Int).emod 4 = ((a % 4 : Nat) : Int) := by
    push_cast
    rfl
  rw [this, Int.toNat_ofNat]

theorem rotate_form0 (X : Arr2) (a : Nat) (h : a % 4 = 0) :
    rotate_array X ((a : Nat) : Int) = X := by
  unfold rotate_array
  simp only [natcast_emod4, h]

theorem rotate_form1 (X : Arr2) (a : Nat) (h : a % 4 = 1) :
    rotate_array X ((a : Nat) : Int) =
      buildMat (ncolsA X) X.length (fun r c => getM X c (ncolsA X - 1 - r) 0) := by
  unfold rotate_array
  simp only [natcast_emod4, h]

theorem rotate_form2 (X : Arr2) (a : Nat) (h : a % 4 = 2) :
    rotate_array X ((a : Nat) : Int) =
      buildMat X.length (ncolsA X)
        (fun r c => getM X (X.length - 1 - r) (ncolsA X - 1 - c) 0) := by
  unfold rotate_array
  simp only [natcast_emod4, h]

theorem rotate_form3 (X : Arr2) (a : Nat) (h : a % 4 = 3) :
    rotate_array X ((a : Nat) : Int) =
      buildMat (ncolsA X) X.length
        (fun r c => getM X (X.length - 1 - c) r 0) := by
  unfold rotate_array
  simp only [natcast_emod4, h]

theorem rotate_square (X : Arr2) (a : Nat)
    (hsq : ∀ row ∈ X, row.length = X.length) :
    (rotate_array X ((a : Nat) : Int)).length = X.length ∧
    ∀ row ∈ rotate_array X ((a : Nat) : Int),
      row.length = (rotate_array X ((a : Nat) : Int)).length := by
  have hnc : ncolsA X = X.length := ncols_of_square X hsq
  have h4 : a % 4 = 0 ∨ a % 4 = 1 ∨ a % 4 = 2 ∨ a % 4 = 3 := by omega
  rcases h4 with h | h | h | h
  · rw [rotate_form0 X a h]
    exact ⟨rfl, hsq⟩
  · rw [rotate_form1 X a h, hnc]
    exact ⟨build_length _ _ _, square_build _ _⟩
  · rw [rotate_form2 X a h, hnc]
    exact ⟨build_length _ _ _, square_build _ _⟩
  · rw [rotate_form3 X a h, hnc]
    exact ⟨build_length _ _ _, square_build _ _⟩

theorem rotate_comp_sq (X : Arr2) (a b : Nat)
    (hsq : ∀ row ∈ X, row.length = X.length) :
    rotate_array (rotate_array X ((a : Nat) : Int)) ((b : Nat) : Int) =
      rotate_array X (((a + b : Nat) : Nat) : Int) := by
  have hnc : ncolsA X = X.length := ncols_of_square X hsq
  have hid : buildMat X.length X.length (fun r c => getM X r c 0) = X :=
    build_getM_id X 0 hsq
  have hn1 : ∀ (m : Nat) (f : Nat → Nat → Nat), ncolsA (buildMat m m f) = m := by
    intro m f
    rw [ncols_of_square _ (square_build m f), build_length]
  have ha4 : a % 4 = 0 ∨ a % 4 = 1 ∨ a % 4 = 2 ∨ a % 4 = 3 := by omega
  have hb4 : b % 4 = 0 ∨ b % 4 = 1 ∨ b % 4 = 2 ∨ b % 4 = 3 := by omega
  rcases ha4 with ha | ha | ha | ha <;> rcases hb4 with hb | hb | hb | hb
  -- (0, j): inner rotation is the identity
  · rw [rotate_form0 X a ha, rotate_form0 X b hb, rotate_form0 X (a + b) (by omega)]
  · rw [rotate_form0 X a ha, rotate_form1 X b hb, rotate_form1 X (a + b) (by omega)]
  · rw [rotate_form0 X a ha, rotate_form2 X b hb, rotate_form2 X (a + b) (by omega)]
  · rw [rotate_form0 X a ha, rotate_form3 X b hb, rotate_form3 X (a + b) (by omega)]
  -- (1, j)
  · rw [rotate_form0 _ b hb, rotate_form1 X a ha, rotate_form1 X (a + b) (by omega)]
  · rw [rotate_form1 X a ha, hnc, rotate_form1 _ b hb, hn1, build_length,
      rotate_form2 X (a + b) (by omega), hnc]
    apply build_congr
    intro r hr c hc
    rw [getM_build _ _ _ _ _ _ hc (by omega)]
  · rw [rotate_form1 X a ha, hnc, rotate_form2 _ b hb, hn1, build_length,
      rotate_form3 X (a + b) (by omega), hnc]
    apply build_congr
    intro r hr c hc
    rw [getM_build _ _ _ _ _ _ (by omega) (by omega)]
    congr 1
    omega
  · rw [rotate_form1 X a ha, hnc, rotate_form3 _ b hb, hn1, build_length,
      rotate_form0 X (a + b) (by omega)]
    conv_rhs => rw [← hid]
    apply build_congr
    intro r hr c hc
    rw [getM_build _ _ _ _ _ _ (by omega) hr]
    congr 1
    omega
  -- (2, j)
  · rw [rotate_form0 _ b hb, rotate_form2 X a ha, rotate_form2 X (a + b) (by omega)]
  · rw [rotate_form2 X a ha, hnc, rotate_form1 _ b hb, hn1, build_length,
      rotate_form3 X (a + b) (by omega), hnc]
    apply build_congr
    intro r hr c hc
    rw [getM_build _ _ _ _ _ _ hc (by omega)]
    congr 1
    omega
  · rw [rotate_form2 X a ha, hnc, rotate_form2 _ b hb, hn1, build_length,
      rotate_form0 X (a + b) (by omega)]
    conv_rhs => rw [← hid]
    apply build_congr
    intro r hr c hc
    rw [getM_build _ _ _ _ _ _ (by omega) (by omega)]
    congr 1 <;> omega
  · rw [rotate_form2 X a ha, hnc, rotate_form3 _ b hb, hn1, build_length,
      rotate_form1 X (a + b) (by omega), hnc]
    apply build_congr
    intro r hr c hc
    rw [getM_build _ _ _ _ _ _ (by omega) hr]
    congr 1
    omega
  -- (3, j)
  · rw [rotate_form0 _ b hb, rotate_form3 X a ha, rotate_form3 X (a + b) (by omega)]
  · rw [rotate_form3 X a ha, hnc, rotate_form1 _ b hb, hn1, build_length,
      rotate_form0 X (a + b) (by omega)]
    conv_rhs => rw [← hid]
    apply build_congr
    intro r hr c hc
    rw [getM_build _ _ _ _ _ _ hc (by omega)]
    congr 1
    omega
  · rw [rotate_form3 X a ha, hnc, rotate_form2 _ b hb, hn1, build_length,
      rotate_form1 X (a + b) (by omega), hnc]
    apply build_congr
    intro r hr c hc
    rw [getM_build _ _ _ _ _ _ (by omega) (by omega)]
    congr 1
    omega
  · rw [rotate_form3 X a ha, hnc, rotate_form3 _ b hb, hn1, build_length,
      rotate_form2 X (a + b) (by omega), hnc]
    apply build_congr
    intro r hr c hc
    rw [getM_build _ _ _ _ _ _ (by omega) hr]

/-! ## rot90 composition -/

theorem dir2num_lt (i : Nat) : DIR2NUM.getD i 0 < 4 := by
  rcases i with _ | _ | _ | _ | i <;> simp [DIR2NUM, List.getD]

theorem rotT_lt (kn x : Nat) : rotT kn x < 4 := by
  unfold rotT
  exact dir2num_lt _

theorem rotT_comp :
    ∀ al < 4, ∀ be < 4, ∀ x < 4, rotT be (rotT al x) = rotT ((al + be) % 4) x := by
  decide

theorem rot90_eq (w : Arr3) (a : Nat) :
    rot90 w ((a : Nat) : Int) =
      num_to_bits ((rotate_array (bits_to_num w) ((a : Nat) : Int)).map
        (fun row => row.map (rotT (a % 4)))) := by
  unfold rot90 rotT
  simp only [natcast_emod4]

theorem getD_map_lt {α β : Type} (l : List α) (g : α → β) (i : Nat) (dp : β) (d : α)
    (h : i < l.length) : (l.map g).getD i dp = g (l.getD i d) := by
  rw [List.getD_eq_getElem _ _ (by simpa using h), List.getElem_map,
    List.getD_eq_getElem _ _ h]

theorem getM_map {α β : Type} (M : List (List α)) (f : α → β) (r c : Nat)
    (dp : β) (d : α) (hr : r < M.length) (hc : c < (M.getD r []).length) :
    getM (M.map (fun row => row.map f)) r c dp = f (getM M r c d) := by
  unfold getM
  rw [getD_map_lt M _ r [] [] hr, getD_map_lt _ f c dp d hc]

theorem map_build {α β : Type} (m n : Nat) (g : Nat → Nat → α) (f : α → β) :
    (buildMat m n g).map (fun row => row.map f) =
      buildMat m n (fun r c => f (g r c)) := by
  unfold buildMat
  rw [List.map_map]
  apply List.map_congr_left
  intro i _
  simp [Function.comp, List.map_map]

theorem ncols_map {α β : Type} (M : List (List α)) (f : α → β) :
    ncolsA (M.map (fun row => row.map f)) = ncolsA M := by
  cases M with
  | nil => rfl
  | cons a t => simp [ncolsA]

theorem length_map_rows {α β : Type} (M : List (List α)) (f : α → β) :
    (M.map (fun row => row.map f)).length = M.length := by
  simp

theorem square_map {α β : Type} (M : List (List α)) (f : α → β)
    (hsq : ∀ row ∈ M, row.length = M.length) :
    ∀ row ∈ M.map (fun rw => rw.map f),
      row.length = (M.map (fun rw => rw.map f)).length := by
  intro row hrow
  obtain ⟨r0, hr0, rfl⟩ := List.mem_map.mp hrow
  simp [hsq r0 hr0]

theorem build_entries {α : Type} (m n : Nat) (f : Nat → Nat → α) (P : α → Prop)
    (hf : ∀ r c, P (f r c)) : ∀ row ∈ buildMat m n f, ∀ v ∈ row, P v := by
  intro row hrow v hv
  unfold buildMat at hrow
  obtain ⟨i, _, rfl⟩ := List.mem_map.mp hrow
  obtain ⟨j, _, rfl⟩ := List.mem_map.mp hv
  exact hf i j

theorem getM_entry_lt (M : Arr2) (h : ∀ row ∈ M, ∀ v ∈ row, v < 4) (r c : Nat) :
    getM M r c 0 < 4 := by
  unfold getM
  have hrow : ∀ v ∈ M.getD r [], v < 4 := by
    by_cases hr : r < M.length
    · rw [List.getD_eq_getElem _ _ hr]
      exact h _ (List.getElem_mem hr)
    · rw [List.getD_eq_default _ _ (by omega)]
      intro v hv
      simp at hv
  by_cases hc : c < (M.getD r []).length
  · rw [List.getD_eq_getElem _ _ hc]
    exact hrow _ (List.getElem_mem hc)
  · rw [List.getD_eq_default _ _ (by omega)]
    decide

theorem rotate_entries_lt (M : Arr2) (a : Nat)
    (h : ∀ row ∈ M, ∀ v ∈ row, v < 4) :
    ∀ row ∈ rotate_array M ((a : Nat) : Int), ∀ v ∈ row, v < 4 := by
  have h4 : a % 4 = 0 ∨ a % 4 = 1 ∨ a % 4 = 2 ∨ a % 4 = 3 := by omega
  rcases h4 with hk | hk | hk | hk
  · rw [rotate_form0 M a hk]; exact h
  · rw [rotate_form1 M a hk]
    exact build_entries _ _ _ _ (fun r c => getM_entry_lt M h _ _)
  · rw [rotate_form2 M a hk]
    exact build_entries _ _ _ _ (fun r c => getM_entry_lt M h _ _)
  · rw [rotate_form3 M a hk]
    exact build_entries _ _ _ _ (fun r c => getM_entry_lt M h _ _)

theorem rotate_map_sq (M : Arr2) (f : Nat → Nat) (a : Nat)
    (hsq : ∀ row ∈ M, row.length = M.length) :
    rotate_array (M.map (fun row => row.map f)) ((a : Nat) : Int) =
      (rotate_array M ((a : Nat) : Int)).map (fun row => row.map f) := by
  have hnc : ncolsA M = M.length := ncols_of_square M hsq
  have hncm : ncolsA (M.map (fun row => row.map f)) = ncolsA M := ncols_map M f
  have hlenm : (M.map (fun row => row.map f)).length = M.length :=
    length_map_rows M f
  have h4 : a % 4 = 0 ∨ a % 4 = 1 ∨ a % 4 = 2 ∨ a % 4 = 3 := by omega
  rcases h4 with hk | hk | hk | hk
  · rw [rotate_form0 _ a hk, rotate_form0 _ a hk]
  · rw [rotate_form1 _ a hk, rotate_form1 _ a hk, hncm, hnc, hlenm, map_build]
    apply build_congr
    intro r hr c hc
    rw [getM_map M f c (M.length - 1 - r) 0 0 (by omega)
      (by rw [List.getD_eq_getElem _ _ (by omega : c < M.length)]
          rw [hsq _ (List.getElem_mem (by omega))]
          omega)]
  · rw [rotate_form2 _ a hk, rotate_form2 _ a hk, hncm, hnc, hlenm, map_build]
    apply build_congr
    intro r hr c hc
    rw [getM_map M f (M.length - 1 - r) (M.length - 1 - c) 0 0 (by omega)
      (by rw [List.getD_eq_getElem _ _ (by omega : M.length - 1 - r < M.length)]
          rw [hsq _ (List.getElem_mem (by omega))]
          omega)]
  · rw [rotate_form3 _ a hk, rotate_form3 _ a hk, hncm, hnc, hlenm, map_build]
    apply build_congr
    intro r hr c hc
    rw [getM_map M f (M.length - 1 - c) r 0 0 (by omega)
      (by rw [List.getD_eq_getElem _ _ (by omega : M.length - 1 - c < M.length)]
          rw [hsq _ (List.getElem_mem (by omega))]
          omega)]

theorem b2n_length (w : Arr3) : (bits_to_num w).length = w.length := by
  simp [bits_to_num]

theorem b2n_square (w : Arr3) (hsq : ∀ row ∈ w, row.length = w.length) :
    ∀ row ∈ bits_to_num w, row.length = (bits_to_num w).length := by
  intro row hrow
  unfold bits_to_num at hrow ⊢
  obtain ⟨r0, hr0, rfl⟩ := List.mem_map.mp hrow
  simp [hsq r0 hr0]

theorem b2n_entries_lt (w : Arr3)
    (hb : ∀ row ∈ w, ∀ q ∈ row, (q.1 = 0 ∨ q.1 = 1) ∧ (q.2 = 0 ∨ q.2 = 1)) :
    ∀ row ∈ bits_to_num w, ∀ v ∈ row, v < 4 := by
  intro row hrow v hv
  unfold bits_to_num at hrow
  obtain ⟨r0, hr0, rfl⟩ := List.mem_map.mp hrow
  obtain ⟨q, hq, rfl⟩ := List.mem_map.mp hv
  obtain ⟨h1, h2⟩ := hb r0 hr0 q hq
  rcases h1 with h1 | h1 <;> rcases h2 with h2 | h2 <;> rw [h1, h2] <;> decide

theorem rotate_mod (X : Arr2) (a : Nat) :
    rotate_array X ((a : Nat) : Int) = rotate_array X (((a % 4 : Nat) : Nat) : Int) := by
  unfold rotate_array
  simp only [natcast_emod4]
  have h : a % 4 % 4 = a % 4 := by omega
  rw [h]

theorem rot90_mod (w : Arr3) (a : Nat) :
    rot90 w ((a : Nat) : Int) = rot90 w (((a % 4 : Nat) : Nat) : Int) := by
  rw [rot90_eq, rot90_eq, ← rotate_mod]
  have h : a % 4 % 4 = a % 4 := by omega
  rw [h]

theorem rot90_square (w : Arr3) (a : Nat)
    (hsq : ∀ row ∈ w, row.length = w.length) :
    (rot90 w ((a : Nat) : Int)).length = w.length ∧
    ∀ row ∈ rot90 w ((a : Nat) : Int), row.length = (rot90 w ((a : Nat) : Int)).length := by
  rw [rot90_eq]
  have hMsq := b2n_square w hsq
  have hrot := rotate_square (bits_to_num w) a hMsq
  constructor
  · simp [num_to_bits, hrot.1, b2n_length]
  · intro row hrow
    unfold num_to_bits at hrow ⊢
    simp only [List.length_map]
    obtain ⟨r1, hr1, rfl⟩ := List.mem_map.mp hrow
    simp only [List.length_map]
    obtain ⟨r2, hr2, rfl⟩ := List.mem_map.mp hr1
    simp only [List.length_map]
    exact hrot.2 r2 hr2

theorem rot90_comp (w : Arr3) (a b : Nat)
    (hsq : ∀ row ∈ w, row.length = w.length)
    (hb : ∀ row ∈ w, ∀ q ∈ row, (q.1 = 0 ∨ q.1 = 1) ∧ (q.2 = 0 ∨ q.2 = 1)) :
    rot90 (rot90 w ((a : Nat) : Int)) ((b : Nat) : Int) =
      rot90 w (((a + b : Nat) : Nat) : Int) := by
  have hMsq := b2n_square w hsq
  have hMlt := b2n_entries_lt w hb
  rw [rot90_eq w a, rot90_eq _ b, rot90_eq w (a + b)]
  have hinner : bits_to_num (num_to_bits ((rotate_array (bits_to_num w)
      ((a : Nat) : Int)).map (fun row => row.map (rotT (a % 4))))) =
      (rotate_array (bits_to_num w) ((a : Nat) : Int)).map
        (fun row => row.map (rotT (a % 4))) := by
    apply bits_to_num_num_to_bits
    intro row hrow v hv
    obtain ⟨r0, _, rfl⟩ := List.mem_map.mp hrow
    obtain ⟨x, _, rfl⟩ := List.mem_map.mp hv
    exact rotT_lt _ _
  rw [hinner]
  rw [rotate_map_sq _ _ b (rotate_square (bits_to_num w) a hMsq).2]
  rw [List.map_map]
  have hfuse : ∀ (X : Arr2),
      X.map ((fun row => row.map (rotT (b % 4))) ∘ (fun row => row.map (rotT (a % 4)))) =
      X.map (fun row => row.map (fun x => rotT (b % 4) (rotT (a % 4) x))) := by
    intro X
    apply List.map_congr_left
    intro row _
    simp [Function.comp, List.map_map]
  rw [hfuse]
  rw [rotate_comp_sq _ a b hMsq]
  congr 1
  apply List.map_congr_left
  intro row hrow
  apply List.map_congr_left
  intro v hv
  have hv4 : v < 4 := rotate_entries_lt (bits_to_num w) (a + b) hMlt row hrow v hv
  rw [rotT_comp (a % 4) (by omega) (b % 4) (by omega) v hv4]
  congr 1
  omega

theorem crop_square_id (X : Arr3) (hsq : ∀ row ∈ X, row.length = X.length) :
    (X.take X.length).map (fun row => row.take X.length) = X := by
  rw [List.take_length]
  apply map_id_of_mem
  intro row hrow
  rw [← hsq row hrow, List.take_length]

theorem decode_rotation_eq_sq (c : AnotoCodec) (v : Arr3)
    (hsq : ∀ row ∈ v, row.length = v.length) :
    c.decode_rotation v = c.decode_rotation_loop v v.length 0 := by
  unfold AnotoCodec.decode_rotation
  simp only []
  rw [ncols_of_square v hsq, Nat.min_self, crop_square_id v hsq]

theorem decode_rotation_loop_step (c : AnotoCodec) (bs : Arr3) (m k : Nat)
    (hk : k < 4) :
    c.decode_rotation_loop bs m k =
      if c.check_rotation (rot90 bs (k : Int)) m then .ok ((4 - k) % 4)
      else c.decode_rotation_loop bs m (k + 1) := by
  unfold AnotoCodec.decode_rotation_loop
  rw [show 5 - k = (4 - k) + 1 from by omega, rotGo, if_pos hk,
    show 5 - (k + 1) = 4 - k from by omega]

theorem decode_rotation_loop_stop (c : AnotoCodec) (bs : Arr3) (m : Nat) :
    c.decode_rotation_loop bs m 4 =
      .error ("Failed to determine pattern orientation.") := by
  unfold AnotoCodec.decode_rotation_loop
  rw [show 5 - 4 = 0 + 1 from by omega, rotGo, if_neg (by omega)]

theorem decode_rotation_rot90_core (c : AnotoCodec) (w : Arr3)
    (hsq : ∀ row ∈ w, row.length = w.length)
    (hb : ∀ row ∈ w, ∀ q ∈ row, (q.1 = 0 ∨ q.1 = 1) ∧ (q.2 = 0 ∨ q.2 = 1))
    (hchk : ∀ j, j < 4 →
      c.check_rotation (rot90 w ((j : Nat) : Int)) w.length = decide (j = 0))
    (k : Nat) (hk : k < 4) :
    c.decode_rotation (rot90 w ((k : Nat) : Int)) = .ok k := by
  have hshape := rot90_square w k hsq
  have hcomp : ∀ j : Nat,
      rot90 (rot90 w ((k : Nat) : Int)) ((j : Nat) : Int) =
        rot90 w ((((k + j) % 4 : Nat) : Nat) : Int) := by
    intro j
    rw [rot90_comp w k j hsq hb, rot90_mod]
  have hcheck : ∀ j, j < 4 →
      c.check_rotation (rot90 (rot90 w ((k : Nat) : Int)) ((j : Nat) : Int))
        w.length = decide ((k + j) % 4 = 0) := by
    intro j hj
    rw [hcomp j, hchk ((k + j) % 4) (by omega)]
  rw [decode_rotation_eq_sq c _ hshape.2, hshape.1]
  have h0 := hcheck 0 (by omega)
  have h1 := hcheck 1 (by omega)
  have h2 := hcheck 2 (by omega)
  have h3 := hcheck 3 (by omega)
  interval_cases k
  · norm_num at h0
    rw [decode_rotation_loop_step _ _ _ 0 (by omega)]
    norm_num [h0]
  · norm_num at h0 h1 h2 h3
    rw [decode_rotation_loop_step _ _ _ 0 (by omega)]
    norm_num [h0]
    rw [decode_rotation_loop_step _ _ _ 1 (by omega)]
    norm_num [h1]
    rw [decode_rotation_loop_step _ _ _ 2 (by omega)]
    norm_num [h2]
    rw [decode_rotation_loop_step _ _ _ 3 (by omega)]
    norm_num [h3]
  · norm_num at h0 h1 h2
    rw [decode_rotation_loop_step _ _ _ 0 (by omega)]
    norm_num [h0]
    rw [decode_rotation_loop_step _ _ _ 1 (by omega)]
    norm_num [h1]
    rw [decode_rotation_loop_step _ _ _ 2 (by omega)]
    norm_num [h2]
  · norm_num at h0 h1
    rw [decode_rotation_loop_step _ _ _ 0 (by omega)]
    norm_num [h0]
    rw [decode_rotation_loop_step _ _ _ 1 (by omega)]
    norm_num [h1]

theorem check_rotation_zero (c : AnotoCodec) (X : Arr3) :
    c.check_rotation X 0 = true := by
  unfold AnotoCodec.check_rotation
  simp

theorem decode_rotation_mindim0 (c : AnotoCodec) (bits : Arr3)
    (hdim : min bits.length (ncolsA bits) = 0) :
    c.decode_rotation bits = .ok 0 := by
  unfold AnotoCodec.decode_rotation
  simp only []
  rw [hdim]
  simp only [List.take_zero, List.map_nil]
  rw [decode_rotation_loop_step _ _ _ 0 (by omega), check_rotation_zero]
  norm_num

theorem decode_rotation_loop_cases (c : AnotoCodec) (bs : Arr3) (m : Nat) :
    ∀ i k, k + i = 4 →
      (∃ v, v < 4 ∧ c.decode_rotation_loop bs m k = .ok v) ∨
      c.decode_rotation_loop bs m k =
        .error ("Failed to determine pattern orientation.") := by
  intro i
  induction i with
  | zero =>
      intro k hk
      right
      have h4 : k = 4 := by omega
      rw [h4]
      exact decode_rotation_loop_stop c bs m
  | succ n ih =>
      intro k hk
      have hk4 : k < 4 := by omega
      rw [decode_rotation_loop_step _ _ _ k hk4]
      by_cases hchk : c.check_rotation (rot90 bs (k : Int)) m
      · rw [if_pos hchk]
        exact Or.inl ⟨(4 - k) % 4, by omega, rfl⟩
      · rw [if_neg hchk]
        exact ih (k + 1) (by omega)

theorem decode_rotation_cases (c : AnotoCodec) (bits : Arr3) :
    (∃ v, v < 4 ∧ c.decode_rotation bits = .ok v) ∨
    c.decode_rotation bits =
      .error ("Failed to determine pattern orientation.") := by
  unfold AnotoCodec.decode_rotation
  simp only []
  exact decode_rotation_loop_cases c _ _ 4 0 rfl

/-! ## Construction success analysis -/

theorem mapM_ok_of_all_ok {α β : Type} (f : α → Except String β) :
    ∀ (l : List α), (∀ a ∈ l, ∃ b, f a = .ok b) → ∃ out, l.mapM f = .ok out := by
  intro l
  induction l with
  | nil => intro _; exact ⟨[], rfl⟩
  | cons a t ih =>
      intro h
      obtain ⟨b, hb⟩ := h a (by simp)
      obtain ⟨out, hout⟩ := ih (fun x hx => h x (by simp [hx]))
      refine ⟨b :: out, ?_⟩
      rw [List.mapM_cons, hb, hout]
      rfl

theorem anoto_new_isOk (mns : List Int) (mo : Nat) (sns : List (List Int))
    (pf : List Int) (dr : Int × Int) :
    exceptIsOk (AnotoCodec.new mns mo sns pf dr) =
      exceptIsOk (CRT.new ((sns.map List.length).map (fun x => Int.ofNat x))) := by
  unfold AnotoCodec.new
  simp only []
  cases CRT.new ((sns.map List.length).map (fun x => Int.ofNat x)) <;> rfl

theorem crt_new_isOk (ls : List Int) :
    exceptIsOk (CRT.new ls) = exceptIsOk (CRT.compute_qs ls ls.prod) := by
  unfold CRT.new
  simp only []
  cases CRT.compute_qs ls ls.prod <;> rfl

theorem compute_qs_elem_ok (li l : Int)
    (h : (extended_euclid li (l.tdiv li)).1 = 1) :
    (fun li =>
      let t := extended_euclid li (l.tdiv li)
      if t.1 ≠ 1 then (.error ("List lengths must be relatively prime.") :
        Except String Int)
      else .ok (((t.2.2.tmod li) + li).tmod li)) li =
      .ok ((((extended_euclid li (l.tdiv li)).2.2.tmod li) + li).tmod li) := by
  simp only [h]
  rw [if_neg (by simp)]

theorem compute_qs_elem_of_ok (li l q : Int)
    (h : (fun li =>
      let t := extended_euclid li (l.tdiv li)
      if t.1 ≠ 1 then (.error ("List lengths must be relatively prime.") :
        Except String Int)
      else .ok (((t.2.2.tmod li) + li).tmod li)) li = .ok q) :
    (extended_euclid li (l.tdiv li)).1 = 1 := by
  simp only [] at h
  split at h
  · cases h
  · rename_i hcond
    simpa using hcond

theorem forall₂_mem_left {α β : Type} (R : α → β → Prop) :
    ∀ (l : List α) (out : List β), List.Forall₂ R l out →
      ∀ a ∈ l, ∃ b, R a b := by
  intro l
  induction l with
  | nil => intro out _ a ha; cases ha
  | cons x t ih =>
      intro out h a ha
      cases h with
      | cons hxb htail =>
          rcases List.mem_cons.mp ha with rfl | hat
          · exact ⟨_, hxb⟩
          · exact ih _ htail a hat

theorem compute_qs_isOk_iff (ls : List Int) (l : Int) :
    exceptIsOk (CRT.compute_qs ls l) = true ↔
      ∀ li ∈ ls, (extended_euclid li (l.tdiv li)).1 = 1 := by
  constructor
  · intro h li hli
    unfold CRT.compute_qs at h
    cases hq : ls.mapM (fun li =>
        let t := extended_euclid li (l.tdiv li)
        if t.1 ≠ 1 then (.error ("List lengths must be relatively prime.") :
          Except String Int)
        else .ok (((t.2.2.tmod li) + li).tmod li)) with
    | error e => rw [hq] at h; cases h
    | ok qs =>
        have hf := forall₂_of_mapM_ok _ ls qs hq
        obtain ⟨q, hqi⟩ := forall₂_mem_left _ _ _ hf li hli
        exact compute_qs_elem_of_ok li l q hqi
  · intro h
    unfold CRT.compute_qs
    obtain ⟨out, hout⟩ := mapM_ok_of_all_ok _ ls (fun li hli =>
      ⟨_, compute_qs_elem_ok li l (h li hli)⟩)
    rw [hout]
    rfl

theorem coprime_list_prod (n : Nat) :
    ∀ (l : List Nat), (∀ x ∈ l, Nat.gcd n x = 1) → Nat.gcd n l.prod = 1 := by
  intro l
  induction l with
  | nil => intro _; simp
  | cons x t ih =>
      intro h
      rw [List.prod_cons]
      exact Nat.Coprime.mul_right (h x (by simp)) (ih (fun y hy => h y (by simp [hy])))

theorem coprime_quot_iff :
    ∀ (ns : List Nat), (∀ n ∈ ns, 0 < n) →
      ((∀ n ∈ ns, Nat.gcd n (ns.prod / n) = 1) ↔
        ns.Pairwise (fun a b => Nat.gcd a b = 1)) := by
  intro ns
  induction ns with
  | nil => intro _; simp
  | cons n t ih =>
      intro hpos
      have hn : 0 < n := hpos n (by simp)
      have htpos : ∀ x ∈ t, 0 < x := fun x hx => hpos x (by simp [hx])
      rw [List.pairwise_cons, List.prod_cons]
      constructor
      · intro h
        constructor
        · intro x hx
          have hxP : x ∣ t.prod := List.dvd_prod hx
          have hhead := h n (by simp)
          rw [Nat.mul_div_cancel_left _ hn] at hhead
          have hd : Nat.gcd n x ∣ Nat.gcd n t.prod :=
            Nat.dvd_gcd (Nat.gcd_dvd_left n x) ((Nat.gcd_dvd_right n x).trans hxP)
          rw [hhead] at hd
          exact Nat.eq_one_of_dvd_one hd
        · apply (ih htpos).mp
          intro x hx
          have hfull := h x (by simp [hx])
          have hxP : x ∣ t.prod := List.dvd_prod hx
          rw [Nat.mul_div_assoc n hxP] at hfull
          have hd : Nat.gcd x (t.prod / x) ∣ Nat.gcd x (n * (t.prod / x)) :=
            Nat.dvd_gcd (Nat.gcd_dvd_left _ _)
              ((Nat.gcd_dvd_right _ _).trans (Dvd.intro_left n rfl))
          rw [hfull] at hd
          exact Nat.eq_one_of_dvd_one hd
      · intro ⟨hhead, htail⟩
        intro x hx
        rcases List.mem_cons.mp hx with rfl | hxt
        · rw [Nat.mul_div_cancel_left _ hn]
          exact coprime_list_prod x t hhead
        · have hxP : x ∣ t.prod := List.dvd_prod hxt
          rw [Nat.mul_div_assoc n hxP]
          have h1 : Nat.gcd x n = 1 := Nat.Coprime.symm (hhead x hxt)
          have h2 : Nat.gcd x (t.prod / x) = 1 := (ih htpos).mpr htail x hxt
          exact Nat.Coprime.mul_right h1 h2

theorem tdiv_natCast (m n : Nat) :
    ((m : Int)).tdiv ((n : Int)) = ((m / n : Nat) : Int) := rfl

theorem ee_one_iff (n N : Nat) :
    (extended_euclid ((n : Nat) : Int) (((N : Nat) : Int).tdiv ((n : Nat) : Int))).1 = 1 ↔
      Nat.gcd n (N / n) = 1 := by
  rw [tdiv_natCast, ee_gcd _ _ (Int.natCast_nonneg n) (Int.natCast_nonneg (N / n))]
  rw [Int.gcd_natCast_natCast]
  exact_mod_cast Iff.rfl

theorem anoto_new_ok_iff (mns : List Int) (mo : Nat) (sns : List (List Int))
    (pf : List Int) (dr : Int × Int)
    (hpos : ∀ s ∈ sns, 0 < s.length) :
    exceptIsOk (AnotoCodec.new mns mo sns pf dr) = true ↔
      (sns.map List.length).Pairwise (fun a b => Nat.gcd a b = 1) := by
  rw [anoto_new_isOk, crt_new_isOk, compute_qs_isOk_iff]
  have hnspos : ∀ n ∈ sns.map List.length, 0 < n := by
    intro n hn
    obtain ⟨s, hs, rfl⟩ := List.mem_map.mp hn
    exact hpos s hs
  have hprod : (((sns.map List.length).map (fun x => Int.ofNat x)).prod) =
      (((sns.map List.length).prod : Nat) : Int) := by
    simp only [Int.ofNat_eq_natCast]
    rw [Nat.cast_list_prod]
  rw [hprod, ← coprime_quot_iff _ hnspos]
  constructor
  · intro h n hn
    have hmem : Int.ofNat n ∈ (sns.map List.length).map (fun x => Int.ofNat x) :=
      List.mem_map_of_mem _ hn
    have := h (Int.ofNat n) hmem
    rw [Int.ofNat_eq_natCast] at this
    exact (ee_one_iff n _).mp this
  · intro h li hli
    obtain ⟨n, hn, rfl⟩ := List.mem_map.mp hli
    rw [Int.ofNat_eq_natCast]
    exact (ee_one_iff n _).mpr (h n hn)

/-! ## Shared concrete instances for the claims -/

theorem tinyWf : ArgsWf [0, 0, 1, 1] 2 [[0, 1]] [2] (0, 1) :=
  ⟨by decide, by decide, by decide, by decide, by decide, by decide, by decide,
   by decide, by decide, by decide, by decide, by decide⟩

theorem tiny_new : AnotoCodec.new [0, 0, 1, 1] 2 [[0, 1]] [2] (0, 1) = .ok anoto_tiny :=
  rfl

theorem crt23_new : CRT.new [2, 3] = .ok crt23 := rfl

/-! ## The claims -/

/-- Claim C1 (amended): for a well-formed configuration, decoding the
`mns_order × mns_order` sub-window of `encode_bitmatrix (H, W) (u, v)` at
corner (y, x) yields the position reduced modulo `∏ SNS lengths` — i.e.
`(x mod Λ, y mod Λ)`, not `(x, y)` itself once `x` or `y` reaches
`Λ = ∏ |SNSᵢ|`. -/
theorem C1_decode_position_mod (mns : List Int) (mord : Nat)
    (sns : List (List Int)) (pf : List Int) (dr : Int × Int) (c : AnotoCodec)
    (hnew : AnotoCodec.new mns mord sns pf dr = .ok c)
    (hwf : ArgsWf mns mord sns pf dr)
    (H W u v x y : Nat) (hy : y + mord ≤ H) (hx : x + mord ≤ W) :
    c.decode_position (subMatrix (c.encode_bitmatrix (H, W) (u, v)) y x mord) =
      .ok (x % (sns.map List.length).prod, y % (sns.map List.length).prod) :=
  decode_position_window mns mord sns pf dr c hnew hwf H W u v x y hy hx

/-- A window whose corner column `x = 2` equals the SNS-length product
`Λ = 2` of the small codec: the decoder reports `(0, 0)`, not `(2, 0)` as the
claim states. -/
theorem C1_counterexample :
    anoto_tiny.decode_position
      (subMatrix (anoto_tiny.encode_bitmatrix (2, 4) (0, 0)) 0 2 2) ≠
      .ok (2, 0) := by
  decide

theorem C1_witness :
    anoto_tiny.decode_position
      (subMatrix (anoto_tiny.encode_bitmatrix (2, 4) (0, 0)) 0 2 2) =
      .ok (2 % 2, 0 % 2) :=
  C1_decode_position_mod [0, 0, 1, 1] 2 [[0, 1]] [2] (0, 1) anoto_tiny tiny_new
    tinyWf 2 4 0 0 2 0 (by decide) (by decide)

/-- Claim C2: for a well-formed configuration, `decode_section` on any
in-range window of `encode_bitmatrix (H, W) (u, v)` at corner (y, x),
given the true position (x, y), returns the encoding section reduced
modulo the MNS length. -/
theorem C2_decode_section (mns : List Int) (mord : Nat)
    (sns : List (List Int)) (pf : List Int) (dr : Int × Int) (c : AnotoCodec)
    (hnew : AnotoCodec.new mns mord sns pf dr = .ok c)
    (hwf : ArgsWf mns mord sns pf dr)
    (H W u v x y : Nat) (hy : y + mord ≤ H) (hx : x + mord ≤ W) :
    c.decode_section (subMatrix (c.encode_bitmatrix (H, W) (u, v)) y x mord)
      (x, y) = .ok (u % mns.length, v % mns.length) :=
  decode_section_window mns mord sns pf dr c hnew hwf H W u v x y hy hx

theorem C2_witness :
    anoto_tiny.decode_section
      (subMatrix (anoto_tiny.encode_bitmatrix (4, 4) (1, 1)) 1 0 2) (0, 1) =
      .ok (1 % 4, 1 % 4) :=
  C2_decode_section [0, 0, 1, 1] 2 [[0, 1]] [2] (0, 1) anoto_tiny tiny_new
    tinyWf 4 4 1 1 0 1 (by decide) (by decide)

/-- Claim C3 (amended): on the domain where the cyclic-extension slices of
`make_cyclic` are in range — `mns_order ≥ 2`, `|MNS| ≥ mns_order − 1`, every
SNS nonempty with `|SNSᵢ| ≥ mns_order − 2` (outside it Rust panics in
`make_cyclic`, before any check) — codec construction succeeds exactly when
the SNS lengths are pairwise coprime.  Conditions (a) (|pfactors| vs |sns|)
and (b) (∏pfactors vs the delta span) are never checked: `AnotoCodec::new`'s
only fallible step is `CRT::new`. -/
theorem C3_construction_ok_iff (mns : List Int) (mord : Nat)
    (sns : List (List Int)) (pf : List Int) (dr : Int × Int)
    (hord : 2 ≤ mord)
    (hmns : mord - 1 ≤ mns.length)
    (hsns : ∀ s ∈ sns, mord - 2 ≤ s.length)
    (hpos : ∀ s ∈ sns, 0 < s.length) :
    exceptIsOk (AnotoCodec.new mns mord sns pf dr) = true ↔
      (sns.map List.length).Pairwise (fun a b => Nat.gcd a b = 1) :=
  anoto_new_ok_iff mns mord sns pf dr hpos

/-- A configuration violating conditions (a) (`|pfactors| ≠ |sns|`) and (b)
(`∏pfactors ≠ δmax − δmin + 1`) of the claim on which construction still
succeeds. -/
theorem C3_counterexample :
    exceptIsOk (AnotoCodec.new [0, 1, 0] 2 [[0, 1, 2]] [3, 3] (5, 58)) = true ∧
    ([3, 3] : List Int).length ≠ ([[0, 1, 2]] : List (List Int)).length ∧
    ([3, 3] : List Int).prod ≠ 58 - 5 + 1 := by
  decide

theorem C3_witness :
    exceptIsOk (AnotoCodec.new [0, 0, 1, 1] 2 [[0, 1]] [2] (0, 1)) = true :=
  (C3_construction_ok_iff [0, 0, 1, 1] 2 [[0, 1]] [2] (0, 1) (by decide)
    (by decide) (by decide) (by decide)).mpr (by decide)

/-- Claim C4: a CRT solver built from positive pairwise-coprime moduli
solves every in-range remainder tuple to the unique value of `[0, ∏Lᵢ)`
matching all the congruences. -/
theorem C4_crt_solve_unique (ls : List Int) (c : CRT)
    (hnew : CRT.new ls = .ok c)
    (hpos : ∀ lx ∈ ls, 0 < lx)
    (hcop : ls.Pairwise (fun a b => Int.gcd a b = 1))
    (rs : List Int) (hlen : rs.length = ls.length)
    (hr : ∀ i, i < ls.length → 0 ≤ rs.getD i 0 ∧ rs.getD i 0 < ls.getD i 0) :
    (0 ≤ c.solve rs ∧ c.solve rs < ls.prod) ∧
    (∀ i, i < ls.length → (c.solve rs) % (ls.getD i 0) = rs.getD i 0) ∧
    (∀ z : Int, 0 ≤ z → z < ls.prod →
      (∀ i, i < ls.length → z % (ls.getD i 0) = rs.getD i 0) → z = c.solve rs) :=
  crt_solve_spec ls c hnew hpos hcop rs hlen hr

theorem C4_witness :
    (0 ≤ crt23.solve [1, 2] ∧ crt23.solve [1, 2] < 6) ∧
    crt23.solve [1, 2] % 2 = 1 ∧ crt23.solve [1, 2] % 3 = 2 :=
  ⟨(C4_crt_solve_unique [2, 3] crt23 crt23_new (by decide) (by decide) [1, 2]
      rfl (by decide)).1,
   (C4_crt_solve_unique [2, 3] crt23 crt23_new (by decide) (by decide) [1, 2]
      rfl (by decide)).2.1 0 (by decide),
   (C4_crt_solve_unique [2, 3] crt23 crt23_new (by decide) (by decide) [1, 2]
      rfl (by decide)).2.1 1 (by decide)⟩

/-- Claim C5 (amended): for a square bit-valued window on which the rotation
check singles out the unrotated orientation (it passes for `j = 0` only —
true of large-enough encoder windows but false of 6×6 ones, where every
rotation passes), decoding any quarter-rotation `k` recovers `k`. -/
theorem C5_decode_rotation_rot90 (c : AnotoCodec) (w : Arr3)
    (hsq : ∀ row ∈ w, row.length = w.length)
    (hb : ∀ row ∈ w, ∀ q ∈ row, (q.1 = 0 ∨ q.1 = 1) ∧ (q.2 = 0 ∨ q.2 = 1))
    (hchk : ∀ j, j < 4 →
      c.check_rotation (rot90 w ((j : Nat) : Int)) w.length = decide (j = 0))
    (k : Nat) (hk : k < 4) :
    c.decode_rotation (rot90 w ((k : Nat) : Int)) = .ok k :=
  decode_rotation_rot90_core c w hsq hb hchk k hk

set_option maxRecDepth 16000 in
/-- A valid 6×6 encoder window on which `decode_rotation` succeeds (with 0),
yet its quarter-rotation decodes to 0 as well, not 1: every rotation of a
6×6 window passes `check_rotation`, so the loop always stops at `k = 0`. -/
theorem C5_counterexample :
    anoto_6x6.decode_rotation (anoto_6x6.encode_bitmatrix (6, 6) (5, 10)) =
      .ok 0 ∧
    anoto_6x6.decode_rotation
      (rot90 (anoto_6x6.encode_bitmatrix (6, 6) (5, 10)) 1) ≠ .ok 1 := by
  constructor
  · decide
  · decide

set_option maxRecDepth 16000 in
theorem C5_witness :
    anoto_6x6.decode_rotation
      (rot90 (anoto_6x6.encode_bitmatrix (8, 8) (5, 10)) ((1 : Nat) : Int)) =
      .ok 1 :=
  C5_decode_rotation_rot90 anoto_6x6 (anoto_6x6.encode_bitmatrix (8, 8) (5, 10))
    (by decide) (by decide) (by decide) 1 (by decide)

/-- Claim C6: mixed-radix round-trips: `reconstruct ∘ project` is the
identity on value lists inside `[0, ∏pᵢ)` and `project ∘ reconstruct` the
identity on in-range digit rows. -/
theorem C6_number_basis_roundtrip (pf : List Int) (hpf : ∀ p ∈ pf, 0 < p) :
    (∀ ns : List Int, (∀ n ∈ ns, 0 ≤ n ∧ n < pf.prod) →
      (NumberBasis.new pf).reconstruct ((NumberBasis.new pf).project ns) = ns) ∧
    (∀ css : List (List Int),
      (∀ cs ∈ css, cs.length = pf.length ∧
        ∀ q ∈ List.zip cs pf, 0 ≤ q.1 ∧ q.1 < q.2) →
      (NumberBasis.new pf).project ((NumberBasis.new pf).reconstruct css) =
        css) := by
  constructor
  · intro ns hns
    unfold NumberBasis.project NumberBasis.reconstruct
    rw [List.map_map]
    apply map_id_of_mem
    intro n hn
    simp only [Function.comp]
    exact nb_reconstruct_project1 pf hpf n (hns n hn).1 (hns n hn).2
  · intro css hcss
    unfold NumberBasis.project NumberBasis.reconstruct
    rw [List.map_map]
    apply map_id_of_mem
    intro cs hcs
    simp only [Function.comp]
    exact nb_project_reconstruct1 pf hpf cs (hcss cs hcs).1 (hcss cs hcs).2

theorem C6_witness :
    (NumberBasis.new [3, 3, 2, 3]).reconstruct
      ((NumberBasis.new [3, 3, 2, 3]).project [5]) = [5] ∧
    (NumberBasis.new [3, 3, 2, 3]).project
      ((NumberBasis.new [3, 3, 2, 3]).reconstruct [[1, 2, 0, 1]]) =
      [[1, 2, 0, 1]] :=
  ⟨(C6_number_basis_roundtrip [3, 3, 2, 3] (by decide)).1 [5] (by decide),
   (C6_number_basis_roundtrip [3, 3, 2, 3] (by decide)).2 [[1, 2, 0, 1]]
     (by decide)⟩

/-- Claim C7: encoder invariants.  On any encoded matrix, every vertical
`mns_order`-slice of channel 0 is a contiguous window of the cyclic MNS whose
starting offset advances by `delta x` (mod `L_m`) between adjacent columns;
symmetrically every horizontal slice of channel 1 is a cyclic MNS window whose
offset advances by `delta y` between adjacent rows. -/
theorem C7_encoder_slices (mns : List Int) (mord : Nat)
    (sns : List (List Int)) (pf : List Int) (dr : Int × Int) (c : AnotoCodec)
    (hnew : AnotoCodec.new mns mord sns pf dr = .ok c)
    (hwf : ArgsWf mns mord sns pf dr) (H W u v y x : Nat) :
    (y + mord ≤ H → x < W →
      ((List.range mord).map (fun i =>
          (getM (c.encode_bitmatrix (H, W) (u, v)) (y + i) x
            ((0 : Int), (0 : Int))).1) =
        subSeq (make_cyclic mns mord)
          ((y + c.rollAt u x) % mns.length) mord) ∧
      (y + c.rollAt u x) % mns.length < mns.length ∧
      (y + c.rollAt u (x + 1)) % mns.length =
        (((y + c.rollAt u x) % mns.length) + (c.delta x).toNat) % mns.length) ∧
    (y < H → x + mord ≤ W →
      ((List.range mord).map (fun j =>
          (getM (c.encode_bitmatrix (H, W) (u, v)) y (x + j)
            ((0 : Int), (0 : Int))).2) =
        subSeq (make_cyclic mns mord)
          ((x + c.rollAt v y) % mns.length) mord) ∧
      (x + c.rollAt v y) % mns.length < mns.length ∧
      (x + c.rollAt v (y + 1)) % mns.length =
        (((x + c.rollAt v y) % mns.length) + (c.delta y).toNat) % mns.length) :=
  ⟨fun hy hx => encode_slice_x mns mord sns pf dr c hnew hwf H W u v y x hy hx,
   fun hy hx => encode_slice_y mns mord sns pf dr c hnew hwf H W u v y x hy hx⟩

theorem C7_witness :
    (0 + anoto_tiny.rollAt 0 1) % ([0, 0, 1, 1] : List Int).length =
      (((0 + anoto_tiny.rollAt 0 0) % ([0, 0, 1, 1] : List Int).length) +
        (anoto_tiny.delta 0).toNat) % ([0, 0, 1, 1] : List Int).length :=
  ((C7_encoder_slices [0, 0, 1, 1] 2 [[0, 1]] [2] (0, 1) anoto_tiny tiny_new
    tinyWf 4 4 0 0 0 0).1 (by decide) (by decide)).2.2

/-- Claim C8 (amended): the packing round-trips hold on in-range inputs only:
`bits_to_num ∘ num_to_bits` is the identity on matrices with entries below 4,
and `num_to_bits ∘ bits_to_num` on bit matrices whose channels are 0/1 —
not on arbitrary entry values, where the high bits are truncated. -/
theorem C8_pack_roundtrips :
    (∀ m : Arr2, (∀ row ∈ m, ∀ v ∈ row, v < 4) →
      bits_to_num (num_to_bits m) = m) ∧
    (∀ b : Arr3,
      (∀ row ∈ b, ∀ q ∈ row, (q.1 = 0 ∨ q.1 = 1) ∧ (q.2 = 0 ∨ q.2 = 1)) →
      num_to_bits (bits_to_num b) = b) :=
  ⟨bits_to_num_num_to_bits, num_to_bits_bits_to_num⟩

/-- Out-of-range entries are not restored: the u8 value 4 and the i8 channel
value 2 both come back truncated. -/
theorem C8_counterexample :
    bits_to_num (num_to_bits [[4]]) ≠ [[4]] ∧
    num_to_bits (bits_to_num [[((2 : Int), (0 : Int))]]) ≠
      [[((2 : Int), (0 : Int))]] := by
  decide

theorem C8_witness :
    bits_to_num (num_to_bits [[3]]) = [[3]] ∧
    num_to_bits (bits_to_num [[((1 : Int), (0 : Int))]]) =
      [[((1 : Int), (0 : Int))]] :=
  ⟨C8_pack_roundtrips.1 [[3]] (by decide),
   C8_pack_roundtrips.2 [[((1 : Int), (0 : Int))]] (by decide)⟩

/-- Claim C9: `decode_rotation` validates no window shape: a window whose
smaller spatial dimension is 0 decodes to `Ok(0)` (the `k = 0` rotation check
passes vacuously), and on every input the result is either `Ok(k)` with
`k < 4` or the orientation error — never a shape error. -/
theorem C9_decode_rotation_no_shape_check (c : AnotoCodec) :
    (∀ bits : Arr3, min bits.length (ncolsA bits) = 0 →
      c.decode_rotation bits = .ok 0) ∧
    (∀ bits : Arr3, (∃ v, v < 4 ∧ c.decode_rotation bits = .ok v) ∨
      c.decode_rotation bits =
        .error ("Failed to determine pattern orientation.")) :=
  ⟨fun bits h => decode_rotation_mindim0 c bits h,
   fun bits => decode_rotation_cases c bits⟩

theorem C9_witness : junkCodec.decode_rotation [[], [], []] = .ok 0 :=
  (C9_decode_rotation_no_shape_check junkCodec).1 [[], [], []] (by decide)

/-- Claim C10: with in-range SNS digits (each entry nonnegative and below its
prime factor) and `∏pfactors = δmax − δmin + 1`, every `delta t` lies in
`[δmin, δmax]`; the encoder's roll increments are therefore always admissible
deltas. -/
theorem C10_delta_in_range (mns : List Int) (mord : Nat)
    (sns : List (List Int)) (pf : List Int) (dr : Int × Int) (c : AnotoCodec)
    (hnew : AnotoCodec.new mns mord sns pf dr = .ok c)
    (hord : 2 ≤ mord)
    (hlong : ∀ s ∈ sns, mord - 1 ≤ s.length)
    (hcount : sns.length = pf.length)
    (hent : ∀ k ∈ List.range sns.length, ∀ a ∈ sns.getD k [],
      0 ≤ a ∧ a < pf.getD k 0)
    (hppos : ∀ p ∈ pf, 0 < p)
    (hprod : pf.prod = dr.2 - dr.1 + 1)
    (t : Nat) :
    dr.1 ≤ c.delta t ∧ c.delta t ≤ dr.2 := by
  rw [delta_eq mns mord sns pf dr c hnew t]
  have hzip := digits_zip_range mord sns pf t hord hlong hcount hent
  have hb := nb_reconstruct1_bounds pf hppos _
    (by rw [digits_length]; exact hcount) hzip
  omega

set_option maxRecDepth 16000 in
theorem C10_witness :
    5 ≤ anoto_6x6_a4_fixed.delta 0 ∧ anoto_6x6_a4_fixed.delta 0 ≤ 58 :=
  C10_delta_in_range seqMNS 6 [seqA1, seqA2, seqA3, seqA4_ALT] [3, 3, 2, 3]
    (5, 58) anoto_6x6_a4_fixed rfl (by decide) (by decide) (by decide)
    (by decide) (by decide) (by decide) 0
